import Mathlib

/-!
# Aether orchestration core — verification development

Shallow embedding of the orchestration core of the Aether studio
(node store, context assembler, universal-driver tool-call accumulation,
orchestration loop tool execution, and the simulation manager), together
with proofs of the behavioural properties stated in the specification.

Conventions of the embedding:
* JavaScript's insertion-ordered string-keyed records (`Record<string, AetherNode>`)
  are modelled as `List AetherNode`, with the key equal to the node's `id` field;
  `Object.values` is the list itself, property lookup is `find?` on the id.
* JavaScript string falsiness (`undefined`, `null` and `""` are falsy) is modelled
  by `jsOrStr` / `jsOrOpt` on `Option String`.
* Enum-like TypeScript string unions (`NodeType`, `toolType`, languages, roles)
  are modelled as plain `String`s, since the code compares them as strings and
  tool-call arguments can inject arbitrary strings through unchecked casts.
* External effects (the sandboxed script runner, the Electron python bridge,
  the random uuid supply) are parameters of the evaluation environment.
* Message ids and timestamps come from the ambient clock (`Date.now`) and play
  no role in the verified properties; they are not modelled.
-/

namespace Aether

/-- A node of the Aether tree (`AetherNode` in `types.ts`).  The `type` field is
an `Option String` because `manage_node` create casts its (optional) string
argument to `NodeType` without a check, so a node's runtime type tag may be
absent.  Fields that no verified operation reads or writes (`collapsed`,
`temperature`, `apiBase`, `apiKey`, `apiEndpoint`) are omitted. -/
structure AetherNode where
  id : String
  type : Option String
  name : String
  parentId : Option String
  provider : Option String
  model : Option String
  systemInstruction : Option String
  toolType : Option String
  code : Option String
  language : Option String
  memoryContent : Option String
  isActive : Option Bool
deriving DecidableEq, Repr, Inhabited

/-- `ProjectState` from `types.ts`: root id, insertion-ordered node record,
selected node. -/
structure ProjectState where
  rootNodeId : String
  nodes : List AetherNode
  selectedNodeId : String
deriving DecidableEq, Repr, Inhabited

/-- Property lookup `project.nodes[id]` on the node record. -/
def findNode (ns : List AetherNode) (id : String) : Option AetherNode :=
  ns.find? (fun n => n.id = id)

/-- Record assignment `project.nodes[id] = v`: replaces the entry when the key
is present, otherwise appends (JS objects keep insertion order). -/
def setNode (ns : List AetherNode) (id : String) (v : AetherNode) : List AetherNode :=
  if ns.any (fun n => n.id = id) then ns.map (fun n => if n.id = id then v else n)
  else ns ++ [v]

/-- `delete project.nodes[id]`. -/
def deleteNode (ns : List AetherNode) (id : String) : List AetherNode :=
  ns.filter (fun n => ¬ n.id = id)

/-- JS `a || b` for an optional string against a string default
(`undefined`, `null` and `""` are falsy). -/
def jsOrStr (a : Option String) (b : String) : String :=
  match a with
  | some s => if s = "" then b else s
  | none => b

/-- JS `a || b` where both sides are optional strings. -/
def jsOrOpt (a : Option String) (b : Option String) : Option String :=
  match a with
  | some s => if s = "" then b else some s
  | none => b

/-- JS property access with a possibly-undefined key: `nodes[undefined]`
coerces the key to the string `"undefined"`. -/
def jsKey (a : Option String) : String :=
  match a with
  | some s => s
  | none => "undefined"

/-- `name.replace(/[^a-zA-Z0-9_]/g, '_')` — every character that is not an
ASCII letter, digit or underscore is replaced by an underscore. -/
def sanitize (s : String) : String :=
  String.mk (s.data.map (fun c => if c.isAlpha || c.isDigit || c = '_' then c else '_'))

/-! ## Simulation manager and application-level store state (`App.tsx`) -/

/-- The application-level state relevant to the simulation manager: the live
project (`project` state), the fork (`simulatedProject`), the `isSimulating`
flag, the persisted copy of the live project (the `localStorage` entry written
by the save effect), and the active-context id stack. -/
structure AppState where
  project : ProjectState
  simulatedProject : Option ProjectState
  isSimulating : Bool
  persisted : ProjectState
  contextIds : List String
deriving Inhabited

/-- `startSimulation` (App.tsx): unconditionally deep-copies the live project
into the fork and marks simulation active.  There is no already-active check. -/
def startSimulation (s : AppState) : AppState :=
  { s with simulatedProject := some s.project, isSimulating := true }

/-- `commitSimulation` (App.tsx): when a fork exists, replaces the live project
with it and clears the fork; otherwise does nothing. -/
def commitSimulation (s : AppState) : AppState :=
  match s.simulatedProject with
  | some sp => { s with project := sp, isSimulating := false, simulatedProject := none }
  | none => s

/-- `abortSimulation` (App.tsx): clears the flag and drops the fork; the live
project is never touched. -/
def abortSimulation (s : AppState) : AppState :=
  { s with isSimulating := false, simulatedProject := none }

/-- `activeProject` (App.tsx): `isSimulating && simulatedProject ? simulatedProject : project`. -/
def activeProjectOf (s : AppState) : ProjectState :=
  if s.isSimulating then
    match s.simulatedProject with
    | some sp => sp
    | none => s.project
  else s.project

/-- `setActiveProject` (App.tsx) applied to a plain value: routes the write to
the fork while simulating, to the live project otherwise. -/
def setActiveProject (v : ProjectState) (s : AppState) : AppState :=
  if s.isSimulating then { s with simulatedProject := some v }
  else { s with project := v }

/-- `setActiveProject` applied to an updater function (the React functional
form).  While simulating the updater is applied to the fork contents (when the
fork is — unreachably — absent, nothing happens); otherwise to the live
project. -/
def setActiveProjectFn (f : ProjectState → ProjectState) (s : AppState) : AppState :=
  if s.isSimulating then { s with simulatedProject := s.simulatedProject.map f }
  else { s with project := f s.project }

/-- `setActiveProject` as invoked from inside a running chat turn: the whole
turn — every recursive `processChatTurn` phase included — executes in the
closure of the render at which it began, so the `isSimulating` the router
tests is the value CAPTURED at turn start (`capturedSim`), not the current
one.  The two `useState` setters themselves are stable across renders, so the
chosen field of the current state receives the write. -/
def setActiveProjectCaptured (capturedSim : Bool) (v : ProjectState)
    (s : AppState) : AppState :=
  if capturedSim then { s with simulatedProject := some v }
  else { s with project := v }

/-- The project-save effect (App.tsx): persists the live project only when not
simulating. -/
def persistTick (s : AppState) : AppState :=
  if s.isSimulating then s else { s with persisted := s.project }

/-- A node-store mutation step performed outside the tool loop: a
`setActiveProject` write (value or functional form), or a run of the
persistence effect. -/
inductive AppOp where
  | setActive (v : ProjectState)
  | setActiveFn (f : ProjectState → ProjectState)
  | persist

/-- Apply one application-level mutation step. -/
def runOp (s : AppState) : AppOp → AppState
  | .setActive v => setActiveProject v s
  | .setActiveFn f => setActiveProjectFn f s
  | .persist => persistTick s

/-- Run a sequence of application-level mutation steps. -/
def runOps : List AppOp → AppState → AppState
  | [], s => s
  | op :: rest, s => runOps rest (runOp s op)

/-! ## Orchestration loop: tool execution (`processChatTurn` in `App.tsx`) -/

/-- The fields the orchestration loop reads off a tool call's `args` object.
JS property reads on an arbitrary object are modelled as optional strings. -/
structure CallArgs where
  action : Option String
  nodeId : Option String
  parentId : Option String
  type : Option String
  name : Option String
  content : Option String
  code : Option String
  language : Option String
  toolType : Option String
  reason : Option String
deriving DecidableEq, Repr, Inhabited

/-- A tool call emitted by a provider driver: capability name plus arguments. -/
structure ToolCall where
  name : String
  args : CallArgs
deriving DecidableEq, Repr, Inhabited

/-- A tool result attached to a history message. -/
structure ToolResponse where
  name : String
  content : String
deriving DecidableEq, Repr, Inhabited

/-- A conversation message (`Message` in `types.ts`), without the ambient-clock
id and timestamp. -/
structure Msg where
  role : String
  content : String
  toolCalls : Option (List ToolCall)
  toolResponse : Option ToolResponse
deriving DecidableEq, Repr, Inhabited

/-- The default code given to a tool node created by `manage_node` when no
`code` argument is supplied (template interpolating the requested name). -/
def aiToolCodeTemplate (nm : Option String) : String :=
  "// AI Generated Tool Logic\nprint(\"Tool " ++ jsOrStr nm "Script" ++
    " executing...\");\nreturn \"Tool logic executed successfully.\";"

/-- The `manage_node` branch of the tool loop: applies a create/update/delete
mutation to the in-flight project and context stack.  Returns the new project,
the new stack, the textual result recorded in the tool response, and whether a
mutation happened (`modified`).  `newId` stands for the `uuid()` drawn in the
create branch.  A thrown error (missing parent or missing node) leaves the
project untouched and yields an `Error:` result; an unrecognised action leaves
the initial `'Action failed'` result in place. -/
def manageNode (newId : String) (p : ProjectState) (stack : List String)
    (args : CallArgs) : ProjectState × List String × String × Bool :=
  if args.action = some "create" then
    let parentId := jsOrStr args.parentId p.rootNodeId
    if (findNode p.nodes parentId).isNone then
      (p, stack, "Error: Parent " ++ parentId ++ " not found", false)
    else
      let newNode : AetherNode :=
        { id := newId
          parentId := some parentId
          type := args.type
          name := jsOrStr args.name "AI_Generated_Node"
          provider := some "google"
          model := some "gemini-2.5-flash"
          systemInstruction := args.content
          memoryContent := args.content
          code := jsOrOpt args.code
            (if args.type = some "TOOL" then some (aiToolCodeTemplate args.name) else none)
          language := some (jsOrStr args.language "javascript")
          isActive := some true
          toolType := if args.type = some "TOOL" then some "function" else none }
      ({ p with nodes := setNode p.nodes newId newNode }, stack ++ [newId],
        "Success. Node created with ID: " ++ newId, true)
  else if args.action = some "update" then
    let nodeId := jsKey args.nodeId
    match findNode p.nodes nodeId with
    | none => (p, stack, "Error: Node " ++ nodeId ++ " not found", false)
    | some node =>
      let node' : AetherNode :=
        { node with
          name := jsOrStr args.name node.name
          systemInstruction :=
            if args.content.isSome then args.content else node.systemInstruction
          memoryContent :=
            if args.content.isSome then args.content else node.memoryContent
          code := jsOrOpt args.code node.code
          parentId := jsOrOpt args.parentId node.parentId
          toolType := jsOrOpt args.toolType node.toolType }
      ({ p with nodes := setNode p.nodes nodeId node' }, stack,
        "Success. Node " ++ nodeId ++ " updated.", true)
  else if args.action = some "delete" then
    let nodeId := jsKey args.nodeId
    if (findNode p.nodes nodeId).isNone then
      (p, stack, "Error: Node " ++ nodeId ++ " not found", false)
    else
      ({ p with nodes := deleteNode p.nodes nodeId },
        stack.filter (fun id => ¬ id = nodeId),
        "Success. Node " ++ nodeId ++ " deleted.", true)
  else (p, stack, "Action failed", false)

/-- The runtime executor's tool lookup: the FIRST node — of any type — whose
sanitized display name equals the requested capability name. -/
def resolveTool (ns : List AetherNode) (toolName : String) : Option AetherNode :=
  ns.find? (fun n => sanitize n.name = toolName)

/-- The textual tool result produced for an unresolved capability name. -/
def notFoundMsg (toolName : String) : String :=
  "[System] Error: Tool definition '" ++ toolName ++ "' not found in active registry."

/-- External collaborators of the tool loop: the Electron bridge flag, the
python bridge, the in-browser JS runner (both may raise, modelled as `Except`),
and the uuid supply consulted by `manage_node` create. -/
structure ExecEnv where
  electron : Bool
  runPython : String → Except String String
  runJs : String → CallArgs → Except String String
  freshId : Nat → String

/-- The in-flight state threaded through one tool-call batch: the application
state, the working copy of the project (`nextProject`), the working context
stack (`nextStack`), the `modified` and `triggeredSimulationChange` flags, the
position in the uuid supply, and `capturedSim` — the `isSimulating` value
captured by the turn's closure when the turn began (the recursion at
App.tsx:629 stays inside that closure, so this flag never changes during a
turn, even after an in-turn `manage_simulation` start). -/
structure LoopState where
  app : AppState
  nextProject : ProjectState
  nextStack : List String
  modified : Bool
  triggeredSim : Bool
  counter : Nat
  capturedSim : Bool

/-- One iteration of `for (const call of toolCalls)`: dispatches on the call
name (simulation manager, node manager, or runtime executor) and returns the
updated loop state together with the textual `result`. -/
def processCall (env : ExecEnv) (ls : LoopState) (call : ToolCall) :
    LoopState × String :=
  if call.name = "manage_simulation" then
    if call.args.action = some "start" then
      -- `startSimulation()` copies the LIVE project into the fork; the
      -- recursion continues on a deep copy of `nextProject` (value-equal).
      ({ ls with app := startSimulation ls.app, triggeredSim := true },
        "Simulation Runtime Started. You are now operating in a sandboxed copy.")
    else if call.args.action = some "commit" then
      ({ ls with app := commitSimulation ls.app, triggeredSim := true },
        "Simulation Committed to Live.")
    else if call.args.action = some "abort" then
      ({ ls with app := abortSimulation ls.app, triggeredSim := true },
        "Simulation Aborted.")
    else (ls, "Action failed")
  else if call.name = "manage_node" then
    let r := manageNode (env.freshId ls.counter) ls.nextProject ls.nextStack call.args
    ({ ls with
        nextProject := r.1
        nextStack := r.2.1
        modified := ls.modified || r.2.2.2
        counter := ls.counter + (if call.args.action = some "create" then 1 else 0) },
      r.2.2.1)
  else
    match resolveTool ls.nextProject.nodes call.name with
    | none => (ls, notFoundMsg call.name)
    | some targetNode =>
      if targetNode.language = some "python" then
        if env.electron then
          match env.runPython (jsOrStr targetNode.code "") with
          | .ok res => (ls, res)
          | .error e => (ls, "Runtime Exception: " ++ e)
        else
          (ls, "Runtime Exception: Python execution requires Desktop Runtime (Electron).")
      else
        match env.runJs (jsOrStr targetNode.code "return \"No code defined\";") call.args with
        | .ok res => (ls, res)
        | .error e => (ls, "Runtime Exception: " ++ e)

/-- The tool-result message appended to history after each call. -/
def toolResponseMsg (call : ToolCall) (result : String) : Msg :=
  { role := "tool", content := "done", toolCalls := none
    toolResponse := some { name := call.name, content := result } }

/-- One step of the batch fold: run the call and push its tool-result message
onto the history being built. -/
def batchStep (env : ExecEnv) (acc : LoopState × List Msg) (c : ToolCall) :
    LoopState × List Msg :=
  let r := processCall env acc.1 c
  (r.1, acc.2 ++ [toolResponseMsg c r.2])

/-- The whole `onToolCall` handler body after the model message is recorded:
runs every call in request order, appending exactly one tool-result message to
the history per call, then — unless a simulation transition happened in this
batch — applies the accumulated mutation through the turn closure's
`setActiveProject`, whose routing flag is the `isSimulating` captured at turn
start (`capturedSim`), not the current one. -/
def processBatch (env : ExecEnv) (ls : LoopState) (hist : List Msg)
    (calls : List ToolCall) : LoopState × List Msg :=
  let fin := calls.foldl (batchStep env) (ls, hist)
  let ls1 := fin.1
  if ls1.modified && !ls1.triggeredSim then
    ({ ls1 with
        app := { setActiveProjectCaptured ls1.capturedSim ls1.nextProject ls1.app with
                   contextIds := ls1.nextStack } },
      fin.2)
  else (ls1, fin.2)

/-- The seed of the next recursive phase of the same turn (`processChatTurn`
recursion at App.tsx:629): `nextProject` and `nextStack` carry over as the
override project and context filter, `modified` and
`triggeredSimulationChange` are fresh `false` bindings of the new invocation,
and the closure — hence `capturedSim` — is unchanged. -/
def nextPhase (ls : LoopState) : LoopState :=
  { ls with modified := false, triggeredSim := false }

/-! ## Context assembler (`collectContext` in the AI engine) -/

/-- One element of the assembled tool catalog:
* `builtins` — the single `systemTools` element holding the two administrative
  function declarations (`manage_node` and `manage_simulation`);
* `search` — a `{ googleSearch: {} }` capability entry;
* `fn name description` — a function declaration wrapping a user tool
  (single free-form `payload` string argument). -/
inductive ToolEntry where
  | builtins
  | search
  | fn (name : String) (description : String)
deriving DecidableEq, Repr

/-- Number of callable declarations an entry contributes: the builtin element
packs two function declarations, every other entry one capability. -/
def declCount : ToolEntry → Nat
  | .builtins => 2
  | .search => 1
  | .fn _ _ => 1

/-- Total number of callable declarations in a catalog. -/
def declSum (ts : List ToolEntry) : Nat :=
  (ts.map declCount).sum

/-- The function-declaration names of a catalog's user-tool entries. -/
def fnNames (ts : List ToolEntry) : List String :=
  ts.filterMap (fun t => match t with | .fn nm _ => some nm | _ => none)

/-- Rendering of possibly-undefined fields inside template literals
(JS prints `undefined`). -/
def showOpt (o : Option String) : String :=
  match o with
  | some s => s
  | none => "undefined"

/-- The labeled instruction block a node contributes when included, `none` for
`SYSTEM`-typed (or untyped) nodes, which contribute no block. -/
def nodeBlock (n : AetherNode) : Option String :=
  if n.type = some "AGENT" || n.type = some "ROUTER" then
    some ("\n[" ++ showOpt n.type ++ ": " ++ n.name ++ " (ID: " ++ n.id ++ ")]\nInstructions: "
      ++ jsOrStr n.systemInstruction "None" ++ "\n")
  else if n.type = some "TOOL" then
    some ("\n[Tool: " ++ n.name ++ " (ID: " ++ n.id ++ ") - " ++ showOpt n.toolType ++ "]\n")
  else if n.type = some "MEMORY" then
    some ("\n[Memory: " ++ n.name ++ " (ID: " ++ n.id ++ ")]\nContent: "
      ++ jsOrStr n.memoryContent "Empty" ++ "\n")
  else none

/-- The catalog entries a node contributes when included: one per Tool node —
a native search capability for `googleSearch` tools, otherwise a function
declaration named by the sanitized display name. -/
def nodeTools (n : AetherNode) : List ToolEntry :=
  if n.type = some "TOOL" then
    if n.toolType = some "googleSearch" then [.search]
    else [.fn (sanitize n.name)
      ("Execute the custom tool '" ++ n.name ++ "'. Logic: "
        ++ (match n.code with
            | some c => if c = "" then "Standard" else "Defined in codebase"
            | none => "Standard"))]
  else []

/-- `shouldInclude`: with no filter every node is included; with a filter a
node is included when listed or when it is the root. -/
def shouldInclude (p : ProjectState) (active : Option (List String)) (id : String) : Bool :=
  match active with
  | none => true
  | some l => l.contains id || id = p.rootNodeId

/-- The record entries whose `parentId` equals the given id, in store order
(the children iterated by the traversal). -/
def childrenOf (ns : List AetherNode) (id : String) : List AetherNode :=
  ns.filter (fun n => n.parentId = some id)

/-- The recursive `traverse` of `collectContext`: at each node append its own
labeled block and catalog entries (when included), then recurse into the
children in store order.  The source recursion has no fuel (and diverges on a
cyclic store); the embedding carries fuel, which the callers set to the store
size — enough for every well-formed store. -/
def traverse (p : ProjectState) (active : Option (List String)) :
    Nat → String → List String × List ToolEntry
  | 0, _ => ([], [])
  | fuel + 1, nodeId =>
    match findNode p.nodes nodeId with
    | none => ([], [])
    | some n =>
      let own : List String × List ToolEntry :=
        if shouldInclude p active nodeId then ((nodeBlock n).toList, nodeTools n)
        else ([], [])
      (childrenOf p.nodes nodeId).foldl
        (fun acc c =>
          (acc.1 ++ (traverse p active fuel c.id).1,
           acc.2 ++ (traverse p active fuel c.id).2))
        own

/-- The instruction blocks and catalog entries gathered by `collectContext`
(empty when the root is missing). -/
def collectParts (p : ProjectState) (active : Option (List String)) :
    List String × List ToolEntry :=
  match findNode p.nodes p.rootNodeId with
  | none => ([], [])
  | some _ => traverse p active p.nodes.length p.rootNodeId

/-- `collectContext`: the assembled `(instruction, tools)` pair.  When the root
is missing the tool list is empty (the builtins are NOT included); otherwise
the catalog is the builtin element followed by the traversal's entries, and the
instruction text is the header followed by the concatenated blocks. -/
def collectContext (p : ProjectState) (active : Option (List String)) :
    String × List ToolEntry :=
  match findNode p.nodes p.rootNodeId with
  | none => ("System Error: Root missing.", [])
  | some _ =>
    let parts := traverse p active p.nodes.length p.rootNodeId
    ("Current Active System Stack:\n" ++ String.join parts.1, .builtins :: parts.2)

/-- The node-visit order of the traversal (same recursion as `traverse`,
recording the visited nodes instead of their contributions). -/
def visit (p : ProjectState) : Nat → String → List AetherNode
  | 0, _ => []
  | fuel + 1, nodeId =>
    match findNode p.nodes nodeId with
    | none => []
    | some n =>
      (childrenOf p.nodes nodeId).foldl
        (fun acc c => acc ++ visit p fuel c.id) [n]

/-! ## Universal delta driver: tool-call fragment accumulation
(`executeUniversalRequest` in the AI engine) -/

/-- A primitive JSON value (string or natural number). -/
inductive MiniVal where
  | num (n : Nat)
  | str (s : String)
deriving DecidableEq, Repr

/-- A structured JSON value.  Modelled from the platform `JSON.parse`/
`JSON.stringify` pair (external to the repository), restricted to the shapes
the tool-call argument payloads exercise: primitives and flat objects. -/
inductive MiniJson where
  | val (v : MiniVal)
  | obj (fields : List (String × MiniVal))
deriving DecidableEq, Repr

/-- Scan a JSON string body up to the closing quote (no escapes). -/
def scanString : List Char → String → Option (String × List Char)
  | [], _ => none
  | c :: rest, acc =>
    if c = '"' then some (acc, rest) else scanString rest (acc.push c)

/-- Scan a nonempty digit run as a natural number. -/
def scanDigits (cs : List Char) : Option (Nat × List Char) :=
  let ds := cs.takeWhile (fun c => c.isDigit)
  if ds.isEmpty then none
  else some (ds.foldl (fun a c => a * 10 + (c.toNat - 48)) 0, cs.dropWhile (fun c => c.isDigit))

/-- Parse one primitive value (string or number). -/
def parsePrim (cs : List Char) : Option (MiniVal × List Char) :=
  match cs with
  | '"' :: rest => (scanString rest "").map (fun r => (.str r.1, r.2))
  | _ => (scanDigits cs).map (fun r => (.num r.1, r.2))

/-- Parse a comma-separated list of `"key":primitive` members (fueled). -/
def parseMembers : Nat → List Char → Option (List (String × MiniVal) × List Char)
  | 0, _ => none
  | fuel + 1, cs =>
    match cs with
    | '"' :: rest =>
      match scanString rest "" with
      | none => none
      | some (k, rest2) =>
        match rest2 with
        | ':' :: rest3 =>
          match parsePrim rest3 with
          | none => none
          | some (v, rest4) =>
            match rest4 with
            | ',' :: rest5 =>
              (parseMembers fuel rest5).map (fun r => ((k, v) :: r.1, r.2))
            | _ => some ([(k, v)], rest4)
        | _ => none
    | _ => none

/-- Modelled from the platform `JSON.parse` (external to the repository),
restricted to primitives and flat objects without whitespace handling —
sufficient for the argument payloads in scope.  Succeeds only when the whole
input is consumed. -/
def miniJsonParse (s : String) : Option MiniJson :=
  match s.data with
  | '{' :: '}' :: rest => if rest.isEmpty then some (.obj []) else none
  | '{' :: rest =>
    match parseMembers (s.length + 1) rest with
    | some (fs, ['}']) => some (.obj fs)
    | _ => none
  | cs =>
    match parsePrim cs with
    | some (v, []) => some (.val v)
    | _ => none

/-- One indexed partial tool-call fragment carried by a stream delta
(`delta.tool_calls[k]`): index, and optional id / function-name / argument-text
slices. -/
structure TCFragment where
  index : Nat
  id : Option String
  fname : Option String
  arguments : Option String
deriving DecidableEq, Repr

/-- One parsed stream event's delta: optional text content and the (possibly
empty) list of tool-call fragments. -/
structure DeltaEvent where
  content : Option String
  tool_calls : List TCFragment
deriving DecidableEq, Repr

/-- An entry of `toolCallBuffer`: the accumulated id, name and argument text
for one stream index. -/
structure BufEntry where
  id : Option String
  fname : Option String
  arguments : String
deriving DecidableEq, Repr, Inhabited

/-- A fresh buffer entry (`{ arguments: '' }`). -/
def emptyEntry : BufEntry := { id := none, fname := none, arguments := "" }

/-- The per-fragment buffer mutation: truthy id and name slices overwrite,
argument text is concatenated. -/
def applyFragEntry (tc : TCFragment) (e : BufEntry) : BufEntry :=
  let e1 := match tc.id with
    | some s => if s = "" then e else { e with id := some s }
    | none => e
  let e2 := match tc.fname with
    | some s => if s = "" then e1 else { e1 with fname := some s }
    | none => e1
  match tc.arguments with
  | some s => if s = "" then e2 else { e2 with arguments := e2.arguments ++ s }
  | none => e2

/-- Insert a fresh buffer entry at its numeric-key position. -/
def bufInsertSorted (entry : Nat × BufEntry) : List (Nat × BufEntry) → List (Nat × BufEntry)
  | [] => [entry]
  | q :: rest =>
    if entry.1 < q.1 then entry :: q :: rest else q :: bufInsertSorted entry rest

/-- `toolCallBuffer` is a JS object keyed by the numeric index; `Object.values`
enumerates integer-like keys in ascending order, so the buffer is modelled as
an association list kept sorted by index, updated in place. -/
def bufSet (buf : List (Nat × BufEntry)) (idx : Nat) (f : BufEntry → BufEntry) :
    List (Nat × BufEntry) :=
  if buf.any (fun q => q.1 = idx) then
    buf.map (fun q => if q.1 = idx then (idx, f q.2) else q)
  else bufInsertSorted (idx, f emptyEntry) buf

/-- Apply one tool-call fragment to the buffer
(`if (!toolCallBuffer[idx]) toolCallBuffer[idx] = { arguments: '' }; ...`). -/
def applyFrag (buf : List (Nat × BufEntry)) (tc : TCFragment) : List (Nat × BufEntry) :=
  bufSet buf tc.index (applyFragEntry tc)

/-- Fold a whole stream of deltas into the buffer: every fragment of every
event, in arrival order. -/
def processDeltas (events : List DeltaEvent) : List (Nat × BufEntry) :=
  events.foldl (fun b ev => ev.tool_calls.foldl applyFrag b) []

/-- A completed tool call reconstructed after stream end (name may be absent
when no fragment carried one). -/
structure UCall where
  name : Option String
  args : MiniJson
deriving DecidableEq, Repr

/-- Post-stream processing: each accumulated argument blob is parsed as JSON;
a parse failure maps the call to `null`, which the final `filter` drops. -/
def finalizeCalls (parse : String → Option MiniJson) (buf : List (Nat × BufEntry)) :
    List UCall :=
  (buf.map (fun q => (parse q.2.arguments).map
    (fun a => ({ name := q.2.fname, args := a } : UCall)))).filterMap id

/-- The outcome the driver reports for a turn. -/
inductive StreamOutcome where
  | toolCalls (calls : List UCall)
  | completed
  | errored (message : String)
deriving DecidableEq, Repr

/-- The end-of-stream decision: a non-empty reconstructed batch is emitted via
`onToolCall`, otherwise the turn completes normally. -/
def finishStream (parse : String → Option MiniJson) (events : List DeltaEvent) :
    StreamOutcome :=
  let calls := finalizeCalls parse (processDeltas events)
  if calls.length > 0 then .toolCalls calls else .completed

/-! ## Structural well-formedness of a node store

The specification's structural invariant: exactly one node (the root) has a
null parent, every other parent id resolves, and there are no cycles.  The
formulation below additionally fixes the store's iteration order to be
root-first (each node's parent occurs at an earlier position) — the order
produced by building a store through node creation, which is how the invariant
is "enforced by construction". -/

/-- Check that a node's parent occurs among the first `i` entries. -/
def parentEarlierB (ns : List AetherNode) (i : Nat) (n : AetherNode) : Bool :=
  match n.parentId with
  | none => true
  | some pid => (ns.take i).any (fun m => decide (m.id = pid))

/-- Well-formed node store with root `rootId`: distinct ids, the root present
with a null parent, every null-parent node is the root, and every node's
parent occurs earlier in iteration order (hence parents resolve and the parent
relation is acyclic). -/
def StoreWF (rootId : String) (ns : List AetherNode) : Prop :=
  (ns.map (fun n => n.id)).Nodup ∧
  (∃ r ∈ ns, r.id = rootId ∧ r.parentId = none) ∧
  (∀ n ∈ ns, n.parentId = none → n.id = rootId) ∧
  ∀ i : Fin ns.length, parentEarlierB ns i.1 (ns.get i) = true

instance (rootId : String) (ns : List AetherNode) : Decidable (StoreWF rootId ns) := by
  unfold StoreWF
  infer_instance

/-- The parent node of `n` in the store (`nodes[n.parentId]`). -/
def parentOf (ns : List AetherNode) (n : AetherNode) : Option AetherNode :=
  n.parentId.bind (findNode ns)

/-- The `k`-th ancestor of a node along the parent relation. -/
def upN (ns : List AetherNode) : Nat → AetherNode → Option AetherNode
  | 0, n => some n
  | k + 1, n => (parentOf ns n).bind (upN ns k)

/-- Claim-side predicate: an included Tool node of search kind. -/
def activeSearchToolB (p : ProjectState) (active : Option (List String))
    (n : AetherNode) : Bool :=
  shouldInclude p active n.id && (n.type = some "TOOL") && (n.toolType = some "googleSearch")

/-- Claim-side predicate: an included Tool node of non-search kind. -/
def activeFnToolB (p : ProjectState) (active : Option (List String))
    (n : AetherNode) : Bool :=
  shouldInclude p active n.id && (n.type = some "TOOL") && !(n.toolType = some "googleSearch")

/-- Claim-side predicate: an included node that contributes a labeled block
(Agent, Router, Tool or Memory — `SYSTEM`-typed and untyped nodes contribute
none). -/
def blockNodeB (p : ProjectState) (active : Option (List String))
    (n : AetherNode) : Bool :=
  shouldInclude p active n.id &&
    ((n.type = some "AGENT") || (n.type = some "ROUTER") || (n.type = some "TOOL") ||
      (n.type = some "MEMORY"))

/-- The instruction blocks a visited node contributes (empty when filtered
out or blockless). -/
def blockContrib (p : ProjectState) (active : Option (List String))
    (n : AetherNode) : List String :=
  if shouldInclude p active n.id then (nodeBlock n).toList else []

/-- The catalog entries a visited node contributes (empty when filtered out
or not a Tool). -/
def toolContrib (p : ProjectState) (active : Option (List String))
    (n : AetherNode) : List ToolEntry :=
  if shouldInclude p active n.id then nodeTools n else []

/-- The assembled instruction blocks of `collectContext` (one labeled block
per contributing node, in traversal order). -/
def collectBlocks (p : ProjectState) (active : Option (List String)) : List String :=
  (collectParts p active).1

/-- Position of the (unique, in a well-formed store) node with a given id. -/
def idIdx (ns : List AetherNode) (id : String) : Nat :=
  ns.findIdx (fun n => n.id = id)

/-! ## Concrete fixtures used by counterexamples and witnesses -/

/-- A minimal system root node. -/
def rootNode : AetherNode :=
  { id := "root", type := some "SYSTEM", name := "Aether_Kernel", parentId := none
    provider := some "google", model := some "gemini-2.5-flash"
    systemInstruction := none, toolType := none, code := none, language := none
    memoryContent := none, isActive := some true }

/-- A search-kind tool node under the root. -/
def searchToolNode (id nm : String) : AetherNode :=
  { id := id, type := some "TOOL", name := nm, parentId := some "root"
    provider := none, model := none, systemInstruction := none
    toolType := some "googleSearch", code := none, language := none
    memoryContent := none, isActive := some true }

/-- A function-kind tool node under the root. -/
def fnToolNode (id nm : String) : AetherNode :=
  { id := id, type := some "TOOL", name := nm, parentId := some "root"
    provider := none, model := none, systemInstruction := none
    toolType := some "function", code := some "return 1;", language := some "javascript"
    memoryContent := none, isActive := some true }

/-- A memory node under the root. -/
def memoryNode (id nm : String) : AetherNode :=
  { id := id, type := some "MEMORY", name := nm, parentId := some "root"
    provider := none, model := none, systemInstruction := none
    toolType := none, code := none, language := none
    memoryContent := some "notes", isActive := some true }

/-- An agent node under the root. -/
def agentNode (id nm : String) : AetherNode :=
  { id := id, type := some "AGENT", name := nm, parentId := some "root"
    provider := some "google", model := some "gemini-2.5-flash"
    systemInstruction := some "Assist.", toolType := none, code := none
    language := none, memoryContent := none, isActive := some true }

/-- Fixture: a well-formed store with two search tools (used against the
claimed "one entry if any search tool" catalog count). -/
def twoSearchProj : ProjectState :=
  { rootNodeId := "root"
    nodes := [rootNode, searchToolNode "s1" "WebSearch", searchToolNode "s2" "NewsSearch"]
    selectedNodeId := "root" }

/-- Fixture: a well-formed store with one non-search tool whose display name
contains a space. -/
def getTimeProj : ProjectState :=
  { rootNodeId := "root"
    nodes := [rootNode, fnToolNode "t1" "Get Time"]
    selectedNodeId := "root" }

/-- Fixture: a store whose only sanitized-name match for `My_Tool` is a
Memory node. -/
def memToolProj : ProjectState :=
  { rootNodeId := "root"
    nodes := [rootNode, memoryNode "m1" "My Tool"]
    selectedNodeId := "root" }

/-- Fixture: a well-formed store with one agent below the root. -/
def agentProj : ProjectState :=
  { rootNodeId := "root"
    nodes := [rootNode, agentNode "a1" "Helper"]
    selectedNodeId := "root" }

/-- A trivial execution environment for witnesses. -/
def idleEnv : ExecEnv :=
  { electron := false
    runPython := fun _ => .ok "py"
    runJs := fun _ _ => .ok "ran"
    freshId := fun k => "gen" ++ toString k }

/-- An application state sitting on a given live project, not simulating. -/
def liveApp (p : ProjectState) : AppState :=
  { project := p, simulatedProject := none, isSimulating := false
    persisted := p, contextIds := p.nodes.map (fun n => n.id) }

/-- A loop state over a given application state whose working copy is the
active project, at the first phase of a turn beginning there: the closure
captures the state's own `isSimulating`. -/
def freshLoop (a : AppState) : LoopState :=
  { app := a, nextProject := activeProjectOf a
    nextStack := a.contextIds, modified := false, triggeredSim := false, counter := 0
    capturedSim := a.isSimulating }

/-- An application state with an active fork whose contents differ from the
live store. -/
def forkApp : AppState :=
  { project := agentProj, simulatedProject := some twoSearchProj, isSimulating := true
    persisted := agentProj, contextIds := ["root", "a1"] }

/-- An arguments object with no fields set. -/
def emptyArgs : CallArgs :=
  { action := none, nodeId := none, parentId := none, type := none, name := none
    content := none, code := none, language := none, toolType := none, reason := none }

/-- A `manage_simulation{action:"start"}` call. -/
def startCall : ToolCall :=
  { name := "manage_simulation", args := { emptyArgs with action := some "start" } }

/-- A call targeting the sanitized name of the Memory node of `memToolProj`. -/
def myToolCall : ToolCall :=
  { name := "My_Tool", args := emptyArgs }

/-- A `manage_node` update of node `t1` passing empty strings for `code`,
`name` and `content`. -/
def blankFieldUpdateArgs : CallArgs :=
  { emptyArgs with
      action := some "update"
      nodeId := some "t1"
      code := some ""
      name := some ""
      content := some "" }

/-- A `manage_node` delete of the root node. -/
def deleteRootCall : ToolCall :=
  { name := "manage_node"
    args := { emptyArgs with action := some "delete", nodeId := some "root" } }

/-- A `manage_node` create of a child named "Kid" under the default parent. -/
def createKidCall : ToolCall :=
  { name := "manage_node"
    args := { emptyArgs with action := some "create", name := some "Kid" } }

/-- The loop state after phase 1 — a `manage_simulation{start}` batch — of a
turn beginning on the live `agentProj` store (so the closure captured
`isSimulating = false`). -/
def phase1 : LoopState :=
  (processBatch idleEnv (freshLoop (liveApp agentProj)) [] [startCall]).1

/-- The loop state after phase 2 of the same turn — a `manage_node` create
batch run by the recursion, still inside the turn-start closure. -/
def phase2 : LoopState :=
  (processBatch idleEnv (nextPhase phase1) [] [createKidCall]).1

/-- A `manage_node` update that reparents node `a1` onto itself. -/
def selfParentArgs : CallArgs :=
  { emptyArgs with
      action := some "update"
      nodeId := some "a1"
      parentId := some "a1" }

/-- `NodeInspector.getPotentialParents`: the parent choices offered for a
node — Agents, Routers, Tools and the root, excluding only the node itself
and its DIRECT children (deeper descendants are offered). -/
def getPotentialParents (project : ProjectState) (localNodeId : String) :
    List AetherNode :=
  project.nodes.filter (fun n =>
    ((n.type = some "AGENT") || (n.type = some "ROUTER") || (n.type = some "TOOL") ||
      (n.id = project.rootNodeId)) &&
    !(n.id = localNodeId) && !(n.parentId = some localNodeId))

/-- An agent node under an arbitrary parent. -/
def agentNodeUnder (id nm pid : String) : AetherNode :=
  { agentNode id nm with parentId := some pid }

/-- Fixture: a three-deep agent chain below the root. -/
def chainProj : ProjectState :=
  { rootNodeId := "root"
    nodes := [rootNode, agentNodeUnder "a1" "A" "root", agentNodeUnder "b1" "B" "a1",
      agentNodeUnder "c1" "C" "b1"]
    selectedNodeId := "root" }

/-- The buffer entry recorded for a stream index, if any. -/
def bufLookup (i : Nat) (buf : List (Nat × BufEntry)) : Option BufEntry :=
  (buf.find? (fun q => q.1 = i)).map (fun q => q.2)

/-- The argument-text slices a stream carries for a given index, in arrival
order. -/
def argSlices (events : List DeltaEvent) (i : Nat) : List String :=
  ((events.flatMap (fun ev => ev.tool_calls)).filter (fun f => f.index = i)).map
    (fun f => f.arguments.getD "")

/-- Whether a stream carries any fragment for a given index. -/
def hasIndex (events : List DeltaEvent) (i : Nat) : Bool :=
  (events.flatMap (fun ev => ev.tool_calls)).any (fun f => f.index = i)

/-- String concatenation of a list of slices. -/
def strConcat (l : List String) : String :=
  l.foldr (fun a b => a ++ b) ""

/-- The specification's two-chunk accumulation example: argument fragments
`{"a":1` and `,"b":2}` arriving at index 0 in two separate deltas. -/
def exampleEvents : List DeltaEvent :=
  [ { content := some "Let me call the tool."
      tool_calls := [{ index := 0, id := some "call_1", fname := some "manage_node"
                       arguments := some "\x7b\"a\":1" }] }
  , { content := none
      tool_calls := [{ index := 0, id := none, fname := none
                       arguments := some ",\"b\":2\x7d" }] } ]

/-- A stream with three calls whose middle argument blob never closes its
brace and therefore fails to parse. -/
def dropEvents : List DeltaEvent :=
  [ { content := none
      tool_calls := [{ index := 0, id := some "c0", fname := some "alpha"
                       arguments := some "\x7b\"x\":1\x7d" }] }
  , { content := none
      tool_calls := [{ index := 1, id := some "c1", fname := some "beta"
                       arguments := some "\x7b\"broken\":" }] }
  , { content := none
      tool_calls := [{ index := 2, id := some "c2", fname := some "gamma"
                       arguments := some "\x7b\"y\":2\x7d" }] } ]

/-! # Theorems

## C9 — `abort`/`commit` with no active fork are no-ops on the live store -/

/-- **C9.** Calling `abort()` when no fork is active, or `commit()` when no
fork is active, leaves the live Node Store bit-for-bit unchanged: `abort`
never writes the live project at all, and `commit` without a fork is the
identity on the whole application state. -/
theorem c9_abort_commit_noop :
    (∀ s : AppState, (abortSimulation s).project = s.project) ∧
    (∀ s : AppState, s.simulatedProject = none → commitSimulation s = s) := by
  refine ⟨fun s => rfl, fun s h => ?_⟩
  unfold commitSimulation
  rw [h]

/-- Witness for C9 at a concrete non-simulating state. -/
theorem c9_abort_commit_noop_witness :
    (liveApp agentProj).simulatedProject = none ∧
    commitSimulation (liveApp agentProj) = liveApp agentProj ∧
    (abortSimulation (liveApp agentProj)).project = (liveApp agentProj).project :=
  ⟨rfl, c9_abort_commit_noop.2 _ rfl, c9_abort_commit_noop.1 _⟩

/-! ## C6 — `start()` while a fork is active -/

/-- **C6 counterexample.** At a state with an active fork whose contents differ
from the live store, calling `start` does NOT leave the existing fork's
contents unchanged: the fork is replaced by a fresh copy of the live store,
contradicting the claimed already-active rejection. -/
theorem c6_start_counterexample :
    forkApp.isSimulating = true ∧
    (startSimulation forkApp).simulatedProject ≠ forkApp.simulatedProject :=
  ⟨rfl, by decide⟩

/-- **C6 (amended).** `start()` performs no already-active check: called while
a fork is active it keeps the simulating flag set and replaces the fork with a
fresh deep copy of the live store (which itself is unchanged); in the tool
loop, a `manage_simulation{action:"start"}` call reports
"Simulation Runtime Started…" (never "already active") and keeps the in-flight
working project. -/
theorem c6_start_replaces_fork :
    (∀ s : AppState, s.isSimulating = true →
      (startSimulation s).isSimulating = true ∧
      (startSimulation s).simulatedProject = some s.project ∧
      (startSimulation s).project = s.project) ∧
    (∀ (env : ExecEnv) (ls : LoopState),
      (processCall env ls startCall).2 =
        "Simulation Runtime Started. You are now operating in a sandboxed copy." ∧
      (processCall env ls startCall).1.app.simulatedProject = some ls.app.project ∧
      (processCall env ls startCall).1.app.project = ls.app.project ∧
      (processCall env ls startCall).1.nextProject = ls.nextProject) := by
  constructor
  · intro s _
    exact ⟨rfl, rfl, rfl⟩
  · intro env ls
    exact ⟨rfl, rfl, rfl, rfl⟩

/-- Witness for C6's amended statement at the concrete forked state. -/
theorem c6_start_replaces_fork_witness :
    (startSimulation forkApp).simulatedProject = some forkApp.project ∧
    (processCall idleEnv (freshLoop forkApp) startCall).1.app.simulatedProject =
      some forkApp.project :=
  ⟨(c6_start_replaces_fork.1 forkApp rfl).2.1,
   (c6_start_replaces_fork.2 idleEnv (freshLoop forkApp)).2.1⟩

/-! ## C1 — fork isolation -/

/-- After `start`, any sequence of store writes and persistence ticks leaves
the live project, its persisted copy and the simulating flag untouched. -/
theorem runOps_sim_invariant (ops : List AppOp) :
    ∀ s : AppState, s.isSimulating = true →
      (runOps ops s).project = s.project ∧
      (runOps ops s).persisted = s.persisted ∧
      (runOps ops s).isSimulating = true := by
  induction ops with
  | nil => exact fun s h => ⟨rfl, rfl, h⟩
  | cons op rest ih =>
    intro s h
    have hstep : (runOp s op).project = s.project ∧ (runOp s op).persisted = s.persisted
        ∧ (runOp s op).isSimulating = true := by
      cases op with
      | setActive v => simp [runOp, setActiveProject, h]
      | setActiveFn f => simp [runOp, setActiveProjectFn, h]
      | persist => simp [runOp, persistTick, h]
    have hr := ih (runOp s op) hstep.2.2
    exact ⟨hr.1.trans hstep.1, hr.2.1.trans hstep.2.1, hr.2.2⟩

/-- Every tool call other than a `manage_simulation` commit leaves the
app-level live project and its persisted copy unchanged, and preserves the
"simulating or simulation-transition recorded" flag. -/
theorem processCall_live_invariant (env : ExecEnv) (ls : LoopState) (c : ToolCall)
    (hnc : ¬(c.name = "manage_simulation" ∧ c.args.action = some "commit")) :
    (processCall env ls c).1.app.project = ls.app.project ∧
    (processCall env ls c).1.app.persisted = ls.app.persisted ∧
    ((ls.app.isSimulating || ls.triggeredSim) = true →
      ((processCall env ls c).1.app.isSimulating
        || (processCall env ls c).1.triggeredSim) = true) := by
  by_cases h1 : c.name = "manage_simulation"
  · by_cases hs : c.args.action = some "start"
    · simp [processCall, h1, hs, startSimulation]
    · by_cases hcm : c.args.action = some "commit"
      · exact absurd ⟨h1, hcm⟩ hnc
      · by_cases hab : c.args.action = some "abort"
        · simp [processCall, h1, hs, hcm, hab, abortSimulation]
        · simp [processCall, h1, hs, hcm, hab]
  · have happ : (processCall env ls c).1.app = ls.app ∧
        (processCall env ls c).1.triggeredSim = ls.triggeredSim := by
      by_cases h2 : c.name = "manage_node"
      · simp [processCall, h1, h2]
      · simp only [processCall, h1, h2, if_false, if_neg]
        cases resolveTool ls.nextProject.nodes c.name with
        | none => exact ⟨rfl, rfl⟩
        | some tn =>
          dsimp only
          by_cases hl : tn.language = some "python"
          · rw [if_pos hl]
            by_cases he : env.electron = true
            · rw [if_pos he]
              cases env.runPython (jsOrStr tn.code "") with
              | ok r => exact ⟨rfl, rfl⟩
              | error e => exact ⟨rfl, rfl⟩
            · rw [if_neg he]
              exact ⟨rfl, rfl⟩
          · rw [if_neg hl]
            cases env.runJs (jsOrStr tn.code "return \"No code defined\";") c.args with
            | ok r => exact ⟨rfl, rfl⟩
            | error e => exact ⟨rfl, rfl⟩
    refine ⟨by rw [happ.1], by rw [happ.1], fun hst => ?_⟩
    rw [happ.1, happ.2]
    exact hst

/-- Fold form of the per-call invariant over a whole batch. -/
theorem batchFold_live_invariant (env : ExecEnv) (calls : List ToolCall) :
    ∀ (ls : LoopState) (hist : List Msg),
      (∀ c ∈ calls, ¬(c.name = "manage_simulation" ∧ c.args.action = some "commit")) →
      (calls.foldl (batchStep env) (ls, hist)).1.app.project = ls.app.project ∧
      (calls.foldl (batchStep env) (ls, hist)).1.app.persisted = ls.app.persisted ∧
      ((ls.app.isSimulating || ls.triggeredSim) = true →
        ((calls.foldl (batchStep env) (ls, hist)).1.app.isSimulating
          || (calls.foldl (batchStep env) (ls, hist)).1.triggeredSim) = true) := by
  induction calls with
  | nil => exact fun ls hist _ => ⟨rfl, rfl, fun h => h⟩
  | cons c cs ih =>
    intro ls hist h
    have hc := processCall_live_invariant env ls c (h c (by simp))
    have hr := ih (processCall env ls c).1
      (hist ++ [toolResponseMsg c (processCall env ls c).2])
      (fun x hx => h x (by simp [hx]))
    exact ⟨hr.1.trans hc.1, hr.2.1.trans hc.2.1, fun hst => hr.2.2 (hc.2.2 hst)⟩

/-- **C1 (code bug).** Fork isolation fails in the source on the designed
flow: in a turn whose first phase runs `manage_simulation{start}` and whose
second phase runs a `manage_node` create, the batch-end write of phase 2
routes through the turn-start closure's `setActiveProject`, where the
captured `isSimulating` is still `false` — so `setProject` writes the mutated
fork copy into the LIVE project while the fork is active and before any
commit.  Concretely: after phase 1 the simulation is active, the live project
and the fork both hold the pristine store; after phase 2 the simulation is
still active, no commit has run, the fork is still pristine, yet the live
project already contains the newly created node `gen0` — contradicting the
sandboxing the code itself announces ("All changes are sandboxed"). -/
theorem c1_start_then_mutate_writes_live :
    phase1.app.isSimulating = true ∧
    phase1.app.project = agentProj ∧
    phase1.app.simulatedProject = some agentProj ∧
    phase2.app.isSimulating = true ∧
    phase2.app.simulatedProject = some agentProj ∧
    ¬ phase2.app.project = agentProj ∧
    ¬ findNode phase2.app.project.nodes "gen0" = none :=
  ⟨by decide, by decide, by decide, by decide, by decide, by decide, by decide⟩

/-! ## C2 — one ordered tool result per call -/

/-- The batch fold appends exactly one tool-result message per processed call,
in request order, each carrying its call's name. -/
theorem batchFold_hist (env : ExecEnv) :
    ∀ (calls : List ToolCall) (ls : LoopState) (hist : List Msg),
      ∃ res : List Msg,
        (calls.foldl (batchStep env) (ls, hist)).2 = hist ++ res ∧
        res.map (fun m => m.toolResponse.map (fun tr => tr.name)) =
          calls.map (fun c => some c.name) ∧
        ∀ m ∈ res, m.role = "tool" := by
  intro calls
  induction calls with
  | nil => exact fun ls hist => ⟨[], by simp, by simp, by simp⟩
  | cons c cs ih =>
    intro ls hist
    obtain ⟨res, h1, h2, h3⟩ :=
      ih (processCall env ls c).1 (hist ++ [toolResponseMsg c (processCall env ls c).2])
    refine ⟨toolResponseMsg c (processCall env ls c).2 :: res, ?_, ?_, ?_⟩
    · have hstep : (c :: cs).foldl (batchStep env) (ls, hist) =
          cs.foldl (batchStep env)
            ((processCall env ls c).1,
              hist ++ [toolResponseMsg c (processCall env ls c).2]) := rfl
      rw [hstep, h1, List.append_assoc]
      rfl
    · simp [toolResponseMsg, h2]
    · intro m hm
      rcases List.mem_cons.mp hm with h | h
      · rw [h]; rfl
      · exact h3 m h

/-- The final store write of `processBatch` does not change the history. -/
theorem processBatch_snd (env : ExecEnv) (ls : LoopState) (hist : List Msg)
    (calls : List ToolCall) :
    (processBatch env ls hist calls).2 = (calls.foldl (batchStep env) (ls, hist)).2 := by
  unfold processBatch
  dsimp only
  split <;> rfl

/-- **C2.** For every batch `[c1..cn]`, the loop appends exactly `n`
tool-result messages to the history — one per call, successful or failed — and
the `i`-th appended result carries the name of `ci`: the appended suffix maps
to the calls' names in request order. -/
theorem c2_one_ordered_result_per_call (env : ExecEnv) (ls : LoopState)
    (hist : List Msg) (calls : List ToolCall) :
    ∃ res : List Msg,
      (processBatch env ls hist calls).2 = hist ++ res ∧
      res.length = calls.length ∧
      res.map (fun m => m.toolResponse.map (fun tr => tr.name)) =
        calls.map (fun c => some c.name) ∧
      ∀ m ∈ res, m.role = "tool" := by
  obtain ⟨res, h1, h2, h3⟩ := batchFold_hist env calls ls hist
  refine ⟨res, (processBatch_snd env ls hist calls).trans h1, ?_, h2, h3⟩
  have := congrArg List.length h2
  simpa using this

/-! ## C10 — `manage_node` update: empty-string arguments -/

/-- `find?` on an in-place keyed update returns the replacement. -/
theorem find?_map_update (ns : List AetherNode) (id : String) (v : AetherNode)
    (hv : v.id = id) (hmem : ns.any (fun n => n.id = id) = true) :
    (ns.map (fun n => if n.id = id then v else n)).find? (fun n => n.id = id) = some v := by
  induction ns with
  | nil => simp at hmem
  | cons a rest ih =>
    by_cases ha : a.id = id
    · simp [ha, hv]
    · have hmem' : rest.any (fun n => n.id = id) = true := by
        simpa [List.any_cons, ha] using hmem
      simp [ha, ih hmem']

/-- Looking up the updated key after a `setNode` on a present key yields the
new value. -/
theorem findNode_setNode_self (ns : List AetherNode) (id : String) (v : AetherNode)
    (hv : v.id = id) (hmem : ns.any (fun n => n.id = id) = true) :
    findNode (setNode ns id v) id = some v := by
  unfold setNode findNode
  rw [if_pos hmem]
  exact find?_map_update ns id v hv hmem

/-- **C10.** A `manage_node` update whose `code` (resp. `name`) argument is the
empty string leaves the node's code (resp. name) unchanged — those fields fall
back on falsy values — whereas an empty-string `content` argument does
overwrite both `systemInstruction` and `memoryContent`; consequently a
non-empty code or name can never be cleared through `manage_node`. -/
theorem c10_update_empty_string_arguments (newId : String) (p : ProjectState)
    (stack : List String) (args : CallArgs) (node : AetherNode)
    (ha : args.action = some "update")
    (hn : findNode p.nodes (jsKey args.nodeId) = some node) :
    (manageNode newId p stack args).2.2.1 =
      "Success. Node " ++ jsKey args.nodeId ++ " updated." ∧
    ∃ node',
      findNode (manageNode newId p stack args).1.nodes (jsKey args.nodeId) = some node' ∧
      (args.code = some "" → node'.code = node.code) ∧
      (args.name = some "" → node'.name = node.name) ∧
      (args.content = some "" →
        node'.systemInstruction = some "" ∧ node'.memoryContent = some "") ∧
      (¬ node.code = none → ¬ node.code = some "" →
        ¬ node'.code = none ∧ ¬ node'.code = some "") ∧
      (¬ node.name = "" → ¬ node'.name = "") := by
  have hne : ¬ args.action = some "create" := by rw [ha]; simp
  have hid : node.id = jsKey args.nodeId := by
    have := List.find?_some hn
    exact of_decide_eq_true this
  have hmem : p.nodes.any (fun n => n.id = jsKey args.nodeId) = true := by
    refine List.any_eq_true.mpr ⟨node, List.mem_of_find?_eq_some hn, ?_⟩
    exact decide_eq_true hid
  unfold manageNode
  rw [if_neg hne, if_pos ha]
  simp only [hn]
  refine ⟨by trivial, _, findNode_setNode_self _ _ _ hid hmem, ?_, ?_, ?_, ?_, ?_⟩
  · intro hc; simp [hc, jsOrOpt]
  · intro hc; simp [hc, jsOrStr]
  · intro hc; simp [hc]
  · intro hc1 hc2
    cases hcode : args.code with
    | none => simpa [jsOrOpt, hcode] using ⟨hc1, hc2⟩
    | some s =>
      by_cases hs : s = ""
      · simpa [jsOrOpt, hcode, hs] using ⟨hc1, hc2⟩
      · simp [jsOrOpt, hcode, hs]
  · intro hc
    cases hname : args.name with
    | none => simpa [jsOrStr, hname] using hc
    | some s =>
      by_cases hs : s = ""
      · simpa [jsOrStr, hname, hs] using hc
      · simp [jsOrStr, hname, hs]

/-- Witness for C10 on the concrete tool node `t1` of `getTimeProj`, passing
empty-string `code`, `name` and `content` arguments. -/
theorem c10_update_empty_string_arguments_witness :
    (manageNode "fresh" getTimeProj [] blankFieldUpdateArgs).2.2.1 =
      "Success. Node t1 updated." ∧
    ∃ node',
      findNode (manageNode "fresh" getTimeProj [] blankFieldUpdateArgs).1.nodes "t1" =
        some node' ∧
      node'.code = (fnToolNode "t1" "Get Time").code ∧
      node'.name = (fnToolNode "t1" "Get Time").name ∧
      node'.systemInstruction = some "" ∧ node'.memoryContent = some "" := by
  have h := c10_update_empty_string_arguments "fresh" getTimeProj [] blankFieldUpdateArgs
    (fnToolNode "t1" "Get Time") rfl (by decide)
  obtain ⟨hres, node', hfind, hcode, hname, hcontent, _, _⟩ := h
  exact ⟨hres, node', hfind, hcode rfl, hname rfl,
    (hcontent rfl).1, (hcontent rfl).2⟩

/-! ## C8 — tool-name resolution -/

/-- **C8 counterexample.** Resolution is NOT restricted to Tool nodes: in
`memToolProj` the call name `My_Tool` resolves to a `MEMORY` node, which is
then executed through the JS runner (yielding the runner's result), even
though the claim says such a node is never selected for execution. -/
theorem c8_memory_node_selected :
    (resolveTool memToolProj.nodes "My_Tool" = some (memoryNode "m1" "My Tool") ∧
      (memoryNode "m1" "My Tool").type = some "MEMORY") ∧
    (processCall idleEnv (freshLoop (liveApp memToolProj)) myToolCall).2 = "ran" := by
  exact ⟨⟨by decide, rfl⟩, by decide⟩

/-- **C8 (amended).** A call that targets neither built-in is resolved by exact
sanitized-name match against ALL nodes (any type), first match in store order
winning; an unresolved name yields the textual `[System] Error: Tool
definition … not found` tool-result, leaving the loop state unchanged rather
than failing the turn. -/
theorem c8_resolution_all_nodes_first_match :
    (∀ (ns : List AetherNode) (nm : String),
      resolveTool ns nm = (ns.filter (fun n => sanitize n.name = nm)).head?) ∧
    (∀ (ns : List AetherNode) (nm : String) (n : AetherNode),
      resolveTool ns nm = some n → n ∈ ns ∧ sanitize n.name = nm) ∧
    (∀ (env : ExecEnv) (ls : LoopState) (call : ToolCall),
      ¬ call.name = "manage_simulation" → ¬ call.name = "manage_node" →
      resolveTool ls.nextProject.nodes call.name = none →
      processCall env ls call = (ls, notFoundMsg call.name)) := by
  refine ⟨?_, ?_, ?_⟩
  · intro ns nm
    induction ns with
    | nil => rfl
    | cons a rest ih =>
      by_cases h : sanitize a.name = nm
      · simp [resolveTool, h]
      · simp only [resolveTool, List.filter_cons, List.find?_cons, decide_eq_true_eq,
          h, if_false, if_neg h]
        exact ih
  · intro ns nm n h
    unfold resolveTool at h
    have hp := List.find?_some h
    simp only [decide_eq_true_eq] at hp
    exact ⟨List.mem_of_find?_eq_some h, hp⟩
  · intro env ls call h1 h2 hres
    unfold processCall
    rw [if_neg h1, if_neg h2, hres]

/-- Witness for C8's amended statement: an unknown name produces the textual
error result, and the `My_Tool` resolution of the counterexample store indeed
returns a store member whose sanitized name matches. -/
theorem c8_resolution_all_nodes_first_match_witness :
    (processCall idleEnv (freshLoop (liveApp agentProj))
        { name := "nope", args := emptyArgs } =
      (freshLoop (liveApp agentProj), notFoundMsg "nope")) ∧
    (memoryNode "m1" "My Tool" ∈ memToolProj.nodes ∧
      sanitize (memoryNode "m1" "My Tool").name = "My_Tool") := by
  constructor
  · exact c8_resolution_all_nodes_first_match.2.2 idleEnv (freshLoop (liveApp agentProj))
      { name := "nope", args := emptyArgs } (by decide) (by decide) (by decide)
  · exact c8_resolution_all_nodes_first_match.2.1 memToolProj.nodes "My_Tool"
      (memoryNode "m1" "My Tool") (by decide)

/-! ## C5 — universal driver: fragment accumulation and parse-failure drops -/

/-- Updating one key of the buffer in place: lookup of that key maps through
the update. -/
theorem bufLookup_map_update (buf : List (Nat × BufEntry)) (idx : Nat)
    (f : BufEntry → BufEntry) :
    bufLookup idx (buf.map (fun q => if q.1 = idx then (idx, f q.2) else q)) =
      (bufLookup idx buf).map f := by
  induction buf with
  | nil => rfl
  | cons q rest ih =>
    unfold bufLookup
    rw [List.map_cons]
    by_cases h : q.1 = idx
    · rw [if_pos h, List.find?_cons_of_pos _ (by simp),
        List.find?_cons_of_pos _ (by simp [h])]
      rfl
    · rw [if_neg h, List.find?_cons_of_neg _ (by simp [h]),
        List.find?_cons_of_neg _ (by simp [h])]
      exact ih

/-- Updating one key leaves lookups of other keys unchanged. -/
theorem bufLookup_map_update_ne (buf : List (Nat × BufEntry)) (idx j : Nat)
    (f : BufEntry → BufEntry) (hj : ¬ j = idx) :
    bufLookup j (buf.map (fun q => if q.1 = idx then (idx, f q.2) else q)) =
      bufLookup j buf := by
  have hj' : ¬ idx = j := fun hh => hj hh.symm
  induction buf with
  | nil => rfl
  | cons q rest ih =>
    unfold bufLookup
    rw [List.map_cons]
    by_cases h : q.1 = idx
    · have hqj : ¬ q.1 = j := by rw [h]; exact hj'
      rw [if_pos h, List.find?_cons_of_neg _ (by simp [hj']),
        List.find?_cons_of_neg _ (by simp [hqj])]
      exact ih
    · by_cases hq : q.1 = j
      · rw [if_neg h, List.find?_cons_of_pos _ (by simp [hq]),
          List.find?_cons_of_pos _ (by simp [hq])]
      · rw [if_neg h, List.find?_cons_of_neg _ (by simp [hq]),
          List.find?_cons_of_neg _ (by simp [hq])]
        exact ih

/-- Looking up the inserted key after a sorted insert. -/
theorem bufLookup_insert_self (entry : Nat × BufEntry) :
    ∀ buf : List (Nat × BufEntry), buf.any (fun q => q.1 = entry.1) = false →
      bufLookup entry.1 (bufInsertSorted entry buf) = some entry.2 := by
  intro buf
  induction buf with
  | nil =>
    intro _
    unfold bufInsertSorted bufLookup
    rw [List.find?_cons_of_pos _ (by simp)]
    rfl
  | cons q rest ih =>
    intro hno
    have hq : ¬ q.1 = entry.1 := by
      intro hh
      simp [List.any_cons, hh] at hno
    have hrest : rest.any (fun x => x.1 = entry.1) = false := by
      simpa [List.any_cons, hq] using hno
    unfold bufInsertSorted
    by_cases hlt : entry.1 < q.1
    · rw [if_pos hlt]
      unfold bufLookup
      rw [List.find?_cons_of_pos _ (by simp)]
      rfl
    · rw [if_neg hlt]
      unfold bufLookup
      rw [List.find?_cons_of_neg _ (by simp [hq])]
      exact ih hrest

/-- A sorted insert leaves lookups of other keys unchanged. -/
theorem bufLookup_insert_ne (entry : Nat × BufEntry) (j : Nat) (hj : ¬ j = entry.1) :
    ∀ buf : List (Nat × BufEntry),
      bufLookup j (bufInsertSorted entry buf) = bufLookup j buf := by
  have hj' : ¬ entry.1 = j := fun hh => hj hh.symm
  intro buf
  induction buf with
  | nil =>
    unfold bufInsertSorted bufLookup
    rw [List.find?_cons_of_neg _ (by simp [hj']), List.find?_nil]
  | cons q rest ih =>
    unfold bufInsertSorted
    by_cases hlt : entry.1 < q.1
    · rw [if_pos hlt]
      unfold bufLookup
      rw [List.find?_cons_of_neg _ (by simp [hj'])]
    · rw [if_neg hlt]
      unfold bufLookup
      by_cases hq : q.1 = j
      · rw [List.find?_cons_of_pos _ (by simp [hq]),
          List.find?_cons_of_pos _ (by simp [hq])]
      · rw [List.find?_cons_of_neg _ (by simp [hq]),
          List.find?_cons_of_neg _ (by simp [hq])]
        exact ih

/-- Characterisation of `bufSet` through lookups: the written key holds the
updated (or freshly created) entry, every other key is untouched. -/
theorem bufLookup_bufSet (buf : List (Nat × BufEntry)) (idx : Nat)
    (f : BufEntry → BufEntry) (j : Nat) :
    bufLookup j (bufSet buf idx f) =
      if j = idx then some (f ((bufLookup idx buf).getD emptyEntry))
      else bufLookup j buf := by
  unfold bufSet
  by_cases hmem : buf.any (fun q => q.1 = idx) = true
  · rw [if_pos hmem]
    by_cases hj : j = idx
    · subst hj
      obtain ⟨e, he, hpe⟩ := List.any_eq_true.mp hmem
      have hsome : (bufLookup j buf).isSome = true := by
        unfold bufLookup
        have : buf.find? (fun q => q.1 = j) ≠ none := by
          intro hnone
          have := List.find?_eq_none.mp hnone e he
          exact this hpe
        cases hfind : buf.find? (fun q => q.1 = j) with
        | none => exact absurd hfind this
        | some v => rfl
      obtain ⟨e', he'⟩ := Option.isSome_iff_exists.mp hsome
      rw [if_pos rfl, bufLookup_map_update, he']
      rfl
    · rw [if_neg hj]
      exact bufLookup_map_update_ne buf idx j f hj
  · have hno : buf.any (fun q => q.1 = idx) = false := by
      cases h : buf.any (fun q => q.1 = idx) with
      | true => exact absurd h hmem
      | false => rfl
    rw [if_neg hmem]
    have hnone : bufLookup idx buf = none := by
      unfold bufLookup
      have : buf.find? (fun q => q.1 = idx) = none := by
        apply List.find?_eq_none.mpr
        intro x hx
        intro hpx
        have : buf.any (fun q => q.1 = idx) = true := List.any_eq_true.mpr ⟨x, hx, hpx⟩
        rw [this] at hno
        cases hno
      rw [this]
      rfl
    by_cases hj : j = idx
    · subst hj
      rw [if_pos rfl, hnone]
      exact bufLookup_insert_self (j, f emptyEntry) buf hno
    · rw [if_neg hj]
      exact bufLookup_insert_ne (idx, f emptyEntry) j hj buf

/-- Lookup after one fragment application. -/
theorem bufLookup_applyFrag (buf : List (Nat × BufEntry)) (tc : TCFragment) (j : Nat) :
    bufLookup j (applyFrag buf tc) =
      if j = tc.index then
        some (applyFragEntry tc ((bufLookup tc.index buf).getD emptyEntry))
      else bufLookup j buf :=
  bufLookup_bufSet buf tc.index (applyFragEntry tc) j

/-- A fragment's effect on the accumulated argument text: pure concatenation
(absent slices contribute nothing). -/
theorem applyFragEntry_arguments (tc : TCFragment) (e : BufEntry) :
    (applyFragEntry tc e).arguments = e.arguments ++ (tc.arguments.getD "") := by
  unfold applyFragEntry
  have h1 : ∀ e' : BufEntry,
      (match tc.id with
        | some s => if s = "" then e' else { e' with id := some s }
        | none => e').arguments = e'.arguments := by
    cases tc.id with
    | none => intro e'; rfl
    | some s =>
      intro e'
      by_cases hs : s = "" <;> simp [hs]
  have h2 : ∀ e' : BufEntry,
      (match tc.fname with
        | some s => if s = "" then e' else { e' with fname := some s }
        | none => e').arguments = e'.arguments := by
    cases tc.fname with
    | none => intro e'; rfl
    | some s =>
      intro e'
      by_cases hs : s = "" <;> simp [hs]
  cases harg : tc.arguments with
  | none =>
    dsimp only
    rw [h2, h1]
    exact (String.append_empty _).symm
  | some s =>
    dsimp only
    by_cases hs : s = ""
    · rw [if_pos hs, h2, h1, hs]
      exact (String.append_empty _).symm
    · rw [if_neg hs]
      dsimp only
      rw [h2, h1]
      rfl

/-- Fold of the whole per-event accumulation equals the fold over the
flattened fragment stream. -/
theorem processDeltas_eq_flat :
    ∀ (events : List DeltaEvent) (buf : List (Nat × BufEntry)),
      events.foldl (fun b ev => ev.tool_calls.foldl applyFrag b) buf =
        (events.flatMap (fun ev => ev.tool_calls)).foldl applyFrag buf := by
  intro events
  induction events with
  | nil => intro buf; rfl
  | cons ev rest ih =>
    intro buf
    simp only [List.foldl_cons, List.flatMap_cons, List.foldl_append]
    exact ih _

/-- Accumulation across a fragment stream: after folding, the entry at index
`i` exists iff some fragment addressed `i`, and its argument text is the
initial text extended by the concatenation of all argument slices for `i`, in
arrival order. -/
theorem fragsFold_arguments (i : Nat) :
    ∀ (frags : List TCFragment) (buf : List (Nat × BufEntry)),
      (bufLookup i (frags.foldl applyFrag buf)).map (fun e => e.arguments) =
        if (bufLookup i buf).isSome = true ∨ frags.any (fun f => f.index = i) = true then
          some (((bufLookup i buf).getD emptyEntry).arguments ++
            strConcat ((frags.filter (fun f => f.index = i)).map
              (fun f => f.arguments.getD "")))
        else none := by
  intro frags
  induction frags with
  | nil =>
    intro buf
    simp only [List.foldl_nil, List.any_nil, List.filter_nil, List.map_nil]
    cases hb : bufLookup i buf with
    | none => simp
    | some e => simp [strConcat, String.append_empty]
  | cons f fs ih =>
    intro buf
    simp only [List.foldl_cons]
    rw [ih (applyFrag buf f)]
    by_cases hf : f.index = i
    · have hlook : bufLookup i (applyFrag buf f) =
          some (applyFragEntry f ((bufLookup i buf).getD emptyEntry)) := by
        rw [bufLookup_applyFrag, if_pos hf.symm, hf]
      rw [hlook]
      simp only [Option.isSome_some, Option.getD_some]
      rw [if_pos (Or.inl trivial)]
      have hcond : (bufLookup i buf).isSome = true ∨
          ((f :: fs).any fun g => decide (g.index = i)) = true :=
        Or.inr (by simp [List.any_cons, hf])
      rw [if_pos hcond, List.filter_cons_of_pos (by simp [hf]), List.map_cons]
      congr 1
      rw [applyFragEntry_arguments, String.append_assoc]
      rfl
    · have hlook : bufLookup i (applyFrag buf f) = bufLookup i buf := by
        rw [bufLookup_applyFrag, if_neg (fun hh => hf hh.symm)]
      rw [hlook]
      have hany : ((f :: fs).any fun g => decide (g.index = i)) =
          (fs.any fun g => decide (g.index = i)) := by
        simp [List.any_cons, hf]
      rw [hany, List.filter_cons_of_neg (by simp [hf])]

/-- Each reconstructed call survives iff its accumulated blob parses. -/
theorem finalizeCalls_length (parse : String → Option MiniJson) :
    ∀ buf : List (Nat × BufEntry),
      (finalizeCalls parse buf).length =
        buf.countP (fun q => (parse q.2.arguments).isSome) := by
  intro buf
  induction buf with
  | nil => rfl
  | cons q rest ih =>
    cases hp : parse q.2.arguments with
    | none =>
      have hstep : finalizeCalls parse (q :: rest) = finalizeCalls parse rest := by
        unfold finalizeCalls
        rw [List.map_cons, hp]
        rfl
      rw [hstep, ih, List.countP_cons]
      simp [hp]
    | some a =>
      have hstep : finalizeCalls parse (q :: rest) =
          { name := q.2.fname, args := a } :: finalizeCalls parse rest := by
        unfold finalizeCalls
        rw [List.map_cons, hp]
        rfl
      rw [hstep, List.length_cons, ih, List.countP_cons]
      simp [hp]

/-- **C5.** Universal-driver argument accumulation: (i) fragments are
accumulated per stream index across the whole stream by concatenating their
argument text, the buffered entry for an index existing exactly when some
fragment addressed it; (ii) on the specification's two-chunk example the
accumulated blob is `{"a":1,"b":2}` and the reconstructed batch is the single
call with arguments `{a:1, b:2}`; (iii) a call whose accumulated blob fails to
parse is silently dropped — the emitted batch keeps exactly the parsable
calls (here the middle of three) and the stream outcome is never a failure
event. -/
theorem c5_accumulate_then_parse_drop :
    (∀ (events : List DeltaEvent) (i : Nat),
      (bufLookup i (processDeltas events)).map (fun e => e.arguments) =
        if hasIndex events i then some (strConcat (argSlices events i)) else none) ∧
    (processDeltas exampleEvents =
      [(0, { id := some "call_1", fname := some "manage_node"
             arguments := "\x7b\"a\":1,\"b\":2\x7d" })] ∧
     finishStream miniJsonParse exampleEvents =
      .toolCalls [{ name := some "manage_node"
                    args := .obj [("a", .num 1), ("b", .num 2)] }]) ∧
    (∀ (parse : String → Option MiniJson) (buf : List (Nat × BufEntry)),
      (finalizeCalls parse buf).length =
        buf.countP (fun q => (parse q.2.arguments).isSome)) ∧
    (∀ (parse : String → Option MiniJson) (events : List DeltaEvent) (m : String),
      ¬ finishStream parse events = .errored m) ∧
    finishStream miniJsonParse dropEvents =
      .toolCalls [{ name := some "alpha", args := .obj [("x", .num 1)] },
                  { name := some "gamma", args := .obj [("y", .num 2)] }] := by
  refine ⟨?_, ⟨by decide, by decide⟩, finalizeCalls_length, ?_, by decide⟩
  · intro events i
    unfold processDeltas
    rw [processDeltas_eq_flat events []]
    rw [fragsFold_arguments i (events.flatMap (fun ev => ev.tool_calls)) []]
    unfold hasIndex argSlices
    have hempty : bufLookup i ([] : List (Nat × BufEntry)) = none := rfl
    rw [hempty]
    simp only [Option.isSome_none, Bool.false_eq_true, false_or, Option.getD_none]
    by_cases h : (events.flatMap (fun ev => ev.tool_calls)).any (fun f => f.index = i) = true
    · rw [if_pos h, if_pos h]
      rw [show emptyEntry.arguments = "" from rfl, String.empty_append]
    · rw [if_neg h, if_neg h]
  · intro parse events m
    unfold finishStream
    dsimp only
    split
    · intro hh; cases hh
    · intro hh; cases hh

/-! ## Store-structure lemmas (for C3, C4 and C7)

Well-formed stores: distinct ids, every parent earlier in iteration order.
These lemmas culminate in `visit_perm`: the assembler's depth-first traversal
visits each node of a well-formed store exactly once. -/

/-- A successful lookup returns a member carrying the looked-up id. -/
theorem findNode_mem_id {ns : List AetherNode} {id : String} {m : AetherNode}
    (h : findNode ns id = some m) : m ∈ ns ∧ m.id = id := by
  refine ⟨List.mem_of_find?_eq_some h, ?_⟩
  have := List.find?_some h
  exact of_decide_eq_true this

/-- With distinct ids, two members with equal ids are equal. -/
theorem id_inj {ns : List AetherNode} (hnd : (ns.map (fun n => n.id)).Nodup)
    {a b : AetherNode} (ha : a ∈ ns) (hb : b ∈ ns) (hab : a.id = b.id) : a = b :=
  List.inj_on_of_nodup_map hnd ha hb hab

/-- With distinct ids, looking up a member's id returns that member. -/
theorem findNode_self {ns : List AetherNode} (hnd : (ns.map (fun n => n.id)).Nodup)
    {n : AetherNode} (hn : n ∈ ns) : findNode ns n.id = some n := by
  have hex : ∃ x ∈ ns, (fun m : AetherNode => decide (m.id = n.id)) x = true :=
    ⟨n, hn, by simp⟩
  have hsome := List.find?_isSome.mpr hex
  cases hfind : findNode ns n.id with
  | none =>
    unfold findNode at hfind
    rw [hfind] at hsome
    cases hsome
  | some m =>
    obtain ⟨hm, hid⟩ := findNode_mem_id hfind
    rw [id_inj hnd hm hn hid]

/-- `findIdx` is at most any position where the predicate holds. -/
theorem findIdx_le_of_pred {α : Type} (p : α → Bool) :
    ∀ (l : List α) (j : Nat) (hj : j < l.length), p (l.get ⟨j, hj⟩) = true →
      l.findIdx p ≤ j := by
  intro l
  induction l with
  | nil => intro j hj; exact absurd hj (Nat.not_lt_zero j)
  | cons a t ih =>
    intro j hj hp
    cases j with
    | zero =>
      have : p a = true := hp
      simp [List.findIdx_cons, this]
    | succ k =>
      by_cases hpa : p a = true
      · simp [List.findIdx_cons, hpa]
      · have hpa' : p a = false := by
          cases h : p a with
          | true => exact absurd h hpa
          | false => rfl
        have := ih k (Nat.lt_of_succ_lt_succ hj) hp
        simp [List.findIdx_cons, hpa']
        omega

/-- A member sits at the position of its id. -/
theorem get_idIdx {ns : List AetherNode} (hnd : (ns.map (fun n => n.id)).Nodup)
    {n : AetherNode} (hn : n ∈ ns) :
    ∃ hlt : idIdx ns n.id < ns.length, ns.get ⟨idIdx ns n.id, hlt⟩ = n := by
  have hex : ∃ x ∈ ns, (fun m : AetherNode => decide (m.id = n.id)) x = true :=
    ⟨n, hn, by simp⟩
  have hlt : idIdx ns n.id < ns.length := List.findIdx_lt_length_of_exists hex
  refine ⟨hlt, ?_⟩
  have hpred := @List.findIdx_getElem _ (fun m : AetherNode => decide (m.id = n.id)) ns hlt
  have hid : ns[ns.findIdx fun m : AetherNode => decide (m.id = n.id)].id = n.id :=
    of_decide_eq_true hpred
  have hmem : ns[ns.findIdx fun m : AetherNode => decide (m.id = n.id)] ∈ ns :=
    List.getElem_mem _
  exact id_inj hnd hmem hn hid

/-- In a well-formed store, a node's parent resolves and sits strictly
earlier. -/
theorem parent_lt {rootId : String} {ns : List AetherNode}
    (hwf : StoreWF rootId ns) {n : AetherNode} (hn : n ∈ ns)
    {pid : String} (hp : n.parentId = some pid) :
    ∃ m, findNode ns pid = some m ∧ idIdx ns m.id < idIdx ns n.id := by
  obtain ⟨hnd, _, _, hclause⟩ := hwf
  obtain ⟨hlt, hget⟩ := get_idIdx hnd hn
  have hpe := hclause ⟨idIdx ns n.id, hlt⟩
  rw [hget] at hpe
  unfold parentEarlierB at hpe
  rw [hp] at hpe
  dsimp only at hpe
  obtain ⟨m, hmtake, hmid⟩ := List.any_eq_true.mp hpe
  have hmid' : m.id = pid := of_decide_eq_true hmid
  have hmem : m ∈ ns := List.mem_of_mem_take hmtake
  -- the looked-up parent is this very member
  have hfind : findNode ns pid = some m := by
    have := findNode_self hnd hmem
    rw [hmid'] at this
    exact this
  refine ⟨m, hfind, ?_⟩
  -- `m` occurs among the first `idIdx ns n.id` entries
  obtain ⟨j, hj, hjget⟩ := List.mem_take_iff_getElem.mp hmtake
  have hjlt : j < ns.length := (lt_min_iff.mp hj).2
  have hple : idIdx ns m.id ≤ j := by
    apply findIdx_le_of_pred _ ns j hjlt
    simp [hjget]
  exact lt_of_le_of_lt hple (lt_min_iff.mp hj).1

/-- Parent steps stay in the store. -/
theorem parentOf_mem {ns : List AetherNode} {n m : AetherNode}
    (h : parentOf ns n = some m) : m ∈ ns := by
  unfold parentOf at h
  cases hp : n.parentId with
  | none => rw [hp] at h; cases h
  | some pid =>
    rw [hp] at h
    exact (findNode_mem_id h).1

/-- In a well-formed store, the parent step strictly decreases the iteration
index. -/
theorem parentOf_lt {rootId : String} {ns : List AetherNode}
    (hwf : StoreWF rootId ns) {n m : AetherNode} (hn : n ∈ ns)
    (h : parentOf ns n = some m) : m ∈ ns ∧ idIdx ns m.id < idIdx ns n.id := by
  unfold parentOf at h
  cases hp : n.parentId with
  | none => rw [hp] at h; cases h
  | some pid =>
    rw [hp] at h
    simp only [Option.some_bind] at h
    obtain ⟨m', hm', hlt⟩ := parent_lt hwf hn hp
    rw [h] at hm'
    cases hm'
    exact ⟨(findNode_mem_id h).1, hlt⟩

/-- Ancestor steps stay in the store. -/
theorem upN_mem {ns : List AetherNode} :
    ∀ (k : Nat) (n m : AetherNode), n ∈ ns → upN ns k n = some m → m ∈ ns := by
  intro k
  induction k with
  | zero =>
    intro n m hn h
    cases h
    exact hn
  | succ j ih =>
    intro n m hn h
    unfold upN at h
    cases hp : parentOf ns n with
    | none => rw [hp] at h; cases h
    | some q =>
      rw [hp] at h
      exact ih q m (parentOf_mem hp) h

/-- In a well-formed store, `k` ancestor steps decrease the index by at
least `k`. -/
theorem upN_idx {rootId : String} {ns : List AetherNode} (hwf : StoreWF rootId ns) :
    ∀ (k : Nat) (n m : AetherNode), n ∈ ns → upN ns k n = some m →
      m ∈ ns ∧ idIdx ns m.id + k ≤ idIdx ns n.id := by
  intro k
  induction k with
  | zero =>
    intro n m hn h
    cases h
    exact ⟨hn, Nat.le_refl _⟩
  | succ j ih =>
    intro n m hn h
    unfold upN at h
    cases hp : parentOf ns n with
    | none => rw [hp] at h; cases h
    | some q =>
      rw [hp] at h
      obtain ⟨hq, hqlt⟩ := parentOf_lt hwf hn hp
      obtain ⟨hm, hmle⟩ := ih q m hq h
      exact ⟨hm, by omega⟩

/-- A well-formed store has no parent cycles: no positive number of steps
returns to the start. -/
theorem upN_no_cycle {rootId : String} {ns : List AetherNode} (hwf : StoreWF rootId ns)
    {n : AetherNode} (hn : n ∈ ns) (k : Nat) : ¬ upN ns (k + 1) n = some n := by
  intro h
  obtain ⟨_, hle⟩ := upN_idx hwf (k + 1) n n hn h
  omega

/-- Splitting an ancestor walk. -/
theorem upN_add {ns : List AetherNode} :
    ∀ (a b : Nat) (n : AetherNode),
      upN ns (a + b) n = (upN ns a n).bind (upN ns b) := by
  intro a
  induction a with
  | zero => intro b n; simp [upN]
  | succ j ih =>
    intro b n
    have hrw : j + 1 + b = (j + b) + 1 := by omega
    rw [hrw]
    show (parentOf ns n).bind (upN ns (j + b)) =
      ((parentOf ns n).bind (upN ns j)).bind (upN ns b)
    cases hp : parentOf ns n with
    | none => rfl
    | some q =>
      simp only [Option.some_bind]
      exact ih b q

/-- Peeling the last ancestor step. -/
theorem upN_succ_right {ns : List AetherNode} (k : Nat) (n : AetherNode) :
    upN ns (k + 1) n = (upN ns k n).bind (parentOf ns) := by
  rw [upN_add k 1 n]
  cases h : upN ns k n with
  | none => rfl
  | some q =>
    simp only [Option.some_bind]
    unfold upN
    cases hp : parentOf ns q with
    | none => rfl
    | some w => rfl

/-- A well-formed store holds its root: the node found under the root id has
a null parent. -/
theorem root_spec {rootId : String} {ns : List AetherNode} (hwf : StoreWF rootId ns) :
    ∃ r, findNode ns rootId = some r ∧ r.id = rootId ∧ r.parentId = none := by
  obtain ⟨hnd, ⟨r, hr, hrid, hrpar⟩, _, _⟩ := hwf
  have hfind : findNode ns rootId = some r := by
    have := findNode_self hnd hr
    rw [hrid] at this
    exact this
  exact ⟨r, hfind, hrid, hrpar⟩

/-- Every node of a well-formed store reaches the root by ancestor steps,
within its own iteration index. -/
theorem reach_root {rootId : String} {ns : List AetherNode} (hwf : StoreWF rootId ns)
    {r : AetherNode} (hr : findNode ns rootId = some r) :
    ∀ (i : Nat) (n : AetherNode), n ∈ ns → idIdx ns n.id ≤ i →
      ∃ k, k ≤ idIdx ns n.id ∧ upN ns k n = some r := by
  intro i
  induction i with
  | zero =>
    intro n hn hle
    cases hp : n.parentId with
    | none =>
      have hid : n.id = rootId := hwf.2.2.1 n hn hp
      have : findNode ns n.id = some n := findNode_self hwf.1 hn
      rw [hid, hr] at this
      cases this
      exact ⟨0, Nat.zero_le _, rfl⟩
    | some pid =>
      obtain ⟨m, hm, hlt⟩ := parent_lt hwf hn hp
      omega
  | succ j ih =>
    intro n hn hle
    cases hp : n.parentId with
    | none =>
      have hid : n.id = rootId := hwf.2.2.1 n hn hp
      have : findNode ns n.id = some n := findNode_self hwf.1 hn
      rw [hid, hr] at this
      cases this
      exact ⟨0, Nat.zero_le _, rfl⟩
    | some pid =>
      obtain ⟨m, hm, hlt⟩ := parent_lt hwf hn hp
      have hmmem : m ∈ ns := (findNode_mem_id hm).1
      obtain ⟨k, hk, hup⟩ := ih m hmmem (by omega)
      refine ⟨k + 1, by omega, ?_⟩
      show (parentOf ns n).bind (upN ns k) = some r
      have hpar : parentOf ns n = some m := by
        unfold parentOf
        rw [hp]
        simpa using hm
      rw [hpar]
      simpa using hup

/-! ### Depth-first visit: soundness, uniqueness, completeness -/

/-- Rewriting the visit fold as a `flatMap`. -/
theorem foldl_append_flatMap {α β : Type} (g : β → List α) :
    ∀ (l : List β) (a : List α),
      l.foldl (fun acc c => acc ++ g c) a = a ++ l.flatMap g := by
  intro l
  induction l with
  | nil => intro a; simp
  | cons c rest ih =>
    intro a
    simp only [List.foldl_cons, List.flatMap_cons, ih (a ++ g c), List.append_assoc]

/-- Unfolding one visit step at a present node. -/
theorem visit_succ {p : ProjectState} {id : String} {n : AetherNode} (fuel : Nat)
    (h : findNode p.nodes id = some n) :
    visit p (fuel + 1) id =
      n :: (childrenOf p.nodes id).flatMap (fun c => visit p fuel c.id) := by
  simp only [visit, h]
  rw [foldl_append_flatMap]
  rfl

/-- Unfolding one visit step at a missing node. -/
theorem visit_succ_none {p : ProjectState} {id : String} (fuel : Nat)
    (h : findNode p.nodes id = none) : visit p (fuel + 1) id = [] := by
  simp only [visit, h]

/-- Visited nodes come from the store. -/
theorem visit_subset {p : ProjectState} :
    ∀ (fuel : Nat) (id : String) (m : AetherNode), m ∈ visit p fuel id → m ∈ p.nodes := by
  intro fuel
  induction fuel with
  | zero => intro id m h; cases h
  | succ f ih =>
    intro id m h
    cases hf : findNode p.nodes id with
    | none =>
      rw [visit_succ_none f hf] at h
      cases h
    | some n =>
      rw [visit_succ f hf] at h
      rcases List.mem_cons.mp h with h | h
      · rw [h]; exact (findNode_mem_id hf).1
      · obtain ⟨c, _, hm⟩ := List.mem_flatMap.mp h
        exact ih c.id m hm

/-- Every visited node has the visit origin among its ancestors, within the
fuel bound. -/
theorem visit_anc {p : ProjectState}
    (hnd : (p.nodes.map (fun n => n.id)).Nodup) :
    ∀ (fuel : Nat) (id : String) (m : AetherNode), m ∈ visit p fuel id →
      ∃ nd, findNode p.nodes id = some nd ∧
        ∃ k, k < fuel ∧ upN p.nodes k m = some nd := by
  intro fuel
  induction fuel with
  | zero => intro id m h; cases h
  | succ f ih =>
    intro id m h
    cases hf : findNode p.nodes id with
    | none =>
      rw [visit_succ_none f hf] at h
      cases h
    | some n =>
      rw [visit_succ f hf] at h
      rcases List.mem_cons.mp h with h | h
      · subst h
        exact ⟨m, rfl, 0, Nat.succ_pos f, rfl⟩
      · obtain ⟨c, hc, hm⟩ := List.mem_flatMap.mp h
        obtain ⟨ndc, hndc, k, hk, hup⟩ := ih c.id m hm
        have hcmem : c ∈ p.nodes := (List.mem_filter.mp hc).1
        have hceq : ndc = c := by
          have := findNode_self hnd hcmem
          rw [this] at hndc
          cases hndc
          rfl
        have hcp : c.parentId = some id := by
          have := (List.mem_filter.mp hc).2
          exact of_decide_eq_true this
        refine ⟨n, rfl, k + 1, by omega, ?_⟩
        rw [upN_succ_right, hup, hceq]
        simp only [Option.some_bind]
        unfold parentOf
        rw [hcp]
        simpa using hf

/-- A child's defining properties. -/
theorem child_spec {ns : List AetherNode} {id : String} {c : AetherNode}
    (hc : c ∈ childrenOf ns id) : c ∈ ns ∧ c.parentId = some id := by
  have h := List.mem_filter.mp hc
  exact ⟨h.1, of_decide_eq_true h.2⟩

/-- The anchor returned by `visit_anc` for a store member is the member. -/
theorem anchor_eq {p : ProjectState} (hnd : (p.nodes.map (fun n => n.id)).Nodup)
    {c cc : AetherNode} (hcmem : c ∈ p.nodes)
    (hcc : findNode p.nodes c.id = some cc) : cc = c := by
  have := findNode_self hnd hcmem
  rw [this] at hcc
  cases hcc
  rfl

/-- At most one occurrence in a union of pairwise-exclusive lists. -/
theorem count_flatMap_le_one {α β : Type} [DecidableEq α] (m : α) :
    ∀ (l : List β) (g : β → List α),
      l.Nodup →
      (∀ c ∈ l, (g c).count m ≤ 1) →
      (∀ c ∈ l, ∀ c' ∈ l, ¬ c = c' → m ∈ g c → ¬ m ∈ g c') →
      (l.flatMap g).count m ≤ 1 := by
  intro l
  induction l with
  | nil => intro g _ _ _; simp
  | cons c rest ih =>
    intro g hnd h1 h2
    rw [List.flatMap_cons, List.count_append]
    by_cases hm : m ∈ g c
    · have hzero : (rest.flatMap g).count m = 0 := by
        rw [List.count_eq_zero]
        intro hmem
        obtain ⟨c', hc', hmc'⟩ := List.mem_flatMap.mp hmem
        have hne : ¬ c = c' := by
          intro he
          exact (List.nodup_cons.mp hnd).1 (he ▸ hc')
        exact h2 c (List.mem_cons_self c rest) c' (List.mem_cons_of_mem c hc') hne hm hmc'
      rw [hzero]
      have := h1 c (List.mem_cons_self c rest)
      omega
    · have hzero : (g c).count m = 0 := List.count_eq_zero.mpr hm
      rw [hzero]
      have := ih g (List.nodup_cons.mp hnd).2
        (fun x hx => h1 x (List.mem_cons_of_mem c hx))
        (fun x hx y hy => h2 x (List.mem_cons_of_mem c hx) y (List.mem_cons_of_mem c hy))
      omega

/-- Subtrees hanging off distinct children of one node never share a
visited node (well-formedness: the path upward is unique). -/
theorem visit_disjoint {rootId : String} {p : ProjectState}
    (hwf : StoreWF rootId p.nodes) {id : String} {nd : AetherNode}
    (hid : findNode p.nodes id = some nd)
    {c c' : AetherNode} (hc : c ∈ childrenOf p.nodes id)
    (hc' : c' ∈ childrenOf p.nodes id) (hne : ¬ c = c') {m : AetherNode}
    (f f' : Nat) (hm : m ∈ visit p f c.id) (hm' : m ∈ visit p f' c'.id) : False := by
  have hnd := hwf.1
  obtain ⟨cc, hcc, k, _, hup⟩ := visit_anc hnd f c.id m hm
  obtain ⟨cc', hcc', k', _, hup'⟩ := visit_anc hnd f' c'.id m hm'
  obtain ⟨hcmem, hcp⟩ := child_spec hc
  obtain ⟨hcmem', hcp'⟩ := child_spec hc'
  rw [anchor_eq hnd hcmem hcc] at hup
  rw [anchor_eq hnd hcmem' hcc'] at hup'
  have hpc : parentOf p.nodes c = some nd := by
    unfold parentOf
    rw [hcp]
    simpa using hid
  have hpc' : parentOf p.nodes c' = some nd := by
    unfold parentOf
    rw [hcp']
    simpa using hid
  have hndmem : nd ∈ p.nodes := (findNode_mem_id hid).1
  have key : ∀ (a b : AetherNode), parentOf p.nodes a = some nd →
      parentOf p.nodes b = some nd → ∀ (ka kb : Nat), ka < kb →
      upN p.nodes ka m = some a → upN p.nodes kb m = some b → False := by
    intro a b hpa hpb ka kb hlt hua hub
    have hd : upN p.nodes (kb - ka) a = some b := by
      have hsplit := @upN_add p.nodes ka (kb - ka) m
      rw [show ka + (kb - ka) = kb from by omega] at hsplit
      rw [hub, hua] at hsplit
      simpa using hsplit.symm
    have h1 : upN p.nodes ((kb - ka) + 1) a = some nd := by
      rw [upN_succ_right, hd]
      simpa using hpb
    have h2 : upN p.nodes ((kb - ka) + 1) a = upN p.nodes (kb - ka) nd := by
      rw [show (kb - ka) + 1 = 1 + (kb - ka) from by omega, upN_add]
      have hu1 : upN p.nodes 1 a = some nd := by
        show (parentOf p.nodes a).bind (upN p.nodes 0) = some nd
        rw [hpa]
        rfl
      rw [hu1]
      simp
    have h3 : upN p.nodes (kb - ka) nd = some nd := by
      rw [← h2, h1]
    rw [show kb - ka = (kb - ka - 1) + 1 from by omega] at h3
    exact upN_no_cycle hwf hndmem _ h3
  rcases Nat.lt_trichotomy k k' with hlt | heq | hgt
  · exact key c c' hpc hpc' k k' hlt hup hup'
  · rw [heq, hup'] at hup
    cases hup
    exact hne rfl
  · exact key c' c hpc' hpc k' k hgt hup' hup

/-- Each node occurs at most once in a visit of a well-formed store. -/
theorem visit_count_le_one {rootId : String} {p : ProjectState}
    (hwf : StoreWF rootId p.nodes) (m : AetherNode) :
    ∀ (fuel : Nat) (id : String), (visit p fuel id).count m ≤ 1 := by
  intro fuel
  induction fuel with
  | zero => intro id; simp [visit]
  | succ f ih =>
    intro id
    cases hf : findNode p.nodes id with
    | none =>
      rw [visit_succ_none f hf]
      simp
    | some n =>
      rw [visit_succ f hf, List.count_cons]
      have hchild_nodup : (childrenOf p.nodes id).Nodup :=
        (List.Nodup.of_map _ hwf.1).filter _
      have hflat :
          ((childrenOf p.nodes id).flatMap (fun c => visit p f c.id)).count m ≤ 1 :=
        count_flatMap_le_one m _ _ hchild_nodup (fun c _ => ih c.id)
          (fun c hc c' hc' hne hmc hmc' =>
            visit_disjoint hwf hf hc hc' hne f f hmc hmc')
      by_cases hmn : m = n
      · have hzero :
            ((childrenOf p.nodes id).flatMap (fun c => visit p f c.id)).count m = 0 := by
          rw [List.count_eq_zero]
          intro hmem
          obtain ⟨c, hc, hmc⟩ := List.mem_flatMap.mp hmem
          obtain ⟨cc, hcc, k, _, hup⟩ := visit_anc hwf.1 f c.id m hmc
          obtain ⟨hcmem, hcp⟩ := child_spec hc
          rw [anchor_eq hwf.1 hcmem hcc] at hup
          have hcycle : upN p.nodes (k + 1) m = some m := by
            rw [upN_succ_right, hup]
            simp only [Option.some_bind]
            unfold parentOf
            rw [hcp]
            simp only [Option.some_bind]
            rw [hf, hmn]
          exact upN_no_cycle hwf (visit_subset f c.id m hmc) k hcycle
        rw [hzero]
        split <;> omega
      · have hne : (n == m) = false := by
          rw [beq_eq_false_iff_ne]
          exact fun h => hmn h.symm
        rw [hne]
        simpa using hflat

/-- Each store node below an ancestor is visited when the fuel exceeds the
ancestor distance. -/
theorem visit_mem_of_upN {p : ProjectState}
    (hnd : (p.nodes.map (fun n => n.id)).Nodup) :
    ∀ (k fuel : Nat), k < fuel → ∀ (n m : AetherNode), n ∈ p.nodes →
      upN p.nodes k n = some m → n ∈ visit p fuel m.id := by
  intro k
  induction k with
  | zero =>
    intro fuel hf n m hn h
    have hnm : n = m := by simpa [upN] using h
    subst hnm
    cases fuel with
    | zero => omega
    | succ f =>
      rw [visit_succ f (findNode_self hnd hn)]
      exact List.mem_cons_self n _
  | succ j ih =>
    intro fuel hf n m hn h
    rw [upN_succ_right] at h
    cases hu : upN p.nodes j n with
    | none =>
      rw [hu] at h
      cases h
    | some c =>
      rw [hu] at h
      simp only [Option.some_bind] at h
      have hcmem : c ∈ p.nodes := upN_mem j n c hn hu
      have hmmem : m ∈ p.nodes := parentOf_mem h
      cases fuel with
      | zero => omega
      | succ f =>
        rw [visit_succ f (findNode_self hnd hmmem)]
        apply List.mem_cons_of_mem
        apply List.mem_flatMap.mpr
        refine ⟨c, ?_, ih f (by omega) n c hn hu⟩
        apply List.mem_filter.mpr
        refine ⟨hcmem, ?_⟩
        unfold parentOf at h
        cases hcp : c.parentId with
        | none =>
          rw [hcp] at h
          cases h
        | some pid =>
          rw [hcp] at h
          simp only [Option.some_bind] at h
          have : pid = m.id := ((findNode_mem_id h).2).symm
          simp [hcp, this]

/-- The assembler's depth-first traversal, run with fuel equal to the store
size, visits each node of a well-formed store exactly once. -/
theorem visit_perm {p : ProjectState} (hwf : StoreWF p.rootNodeId p.nodes) :
    (visit p p.nodes.length p.rootNodeId).Perm p.nodes := by
  apply List.perm_iff_count.mpr
  intro m
  by_cases hm : m ∈ p.nodes
  · have h1 : p.nodes.count m = 1 :=
      List.count_eq_one_of_mem (List.Nodup.of_map _ hwf.1) hm
    rw [h1]
    obtain ⟨r, hr, hrid, _⟩ := root_spec hwf
    obtain ⟨k, hk, hup⟩ := reach_root hwf hr (idIdx p.nodes m.id) m hm (Nat.le_refl _)
    have hklt : k < p.nodes.length := by
      obtain ⟨hlt, _⟩ := get_idIdx hwf.1 hm
      omega
    have hmem : m ∈ visit p p.nodes.length r.id :=
      visit_mem_of_upN hwf.1 k p.nodes.length hklt m r hm hup
    rw [hrid] at hmem
    have hge : 0 < (visit p p.nodes.length p.rootNodeId).count m :=
      List.count_pos_iff.mpr hmem
    have hle := visit_count_le_one hwf m p.nodes.length p.rootNodeId
    omega
  · rw [List.count_eq_zero.mpr hm,
      List.count_eq_zero.mpr (fun hmem => hm (visit_subset _ _ _ hmem))]

/-! ### Factoring the traversal's output through the visit order -/

/-- Pair-valued fold as two `flatMap`s. -/
theorem foldl_pair_append {α β γ : Type} (g1 : γ → List α) (g2 : γ → List β) :
    ∀ (l : List γ) (a : List α × List β),
      l.foldl (fun acc c => (acc.1 ++ g1 c, acc.2 ++ g2 c)) a =
        (a.1 ++ l.flatMap g1, a.2 ++ l.flatMap g2) := by
  intro l
  induction l with
  | nil =>
    intro a
    cases a
    simp
  | cons c rest ih =>
    intro a
    simp only [List.foldl_cons, List.flatMap_cons, ih, List.append_assoc]

/-- The traversal's blocks and catalog entries are the per-node contributions
of the visited nodes, in visit order. -/
theorem traverse_factor (p : ProjectState) (act : Option (List String)) :
    ∀ (fuel : Nat) (id : String),
      traverse p act fuel id =
        ((visit p fuel id).flatMap (blockContrib p act),
         (visit p fuel id).flatMap (toolContrib p act)) := by
  intro fuel
  induction fuel with
  | zero => intro id; rfl
  | succ f ih =>
    intro id
    cases hf : findNode p.nodes id with
    | none =>
      rw [visit_succ_none f hf]
      simp [traverse, hf]
    | some n =>
      rw [visit_succ f hf]
      simp only [traverse, hf]
      rw [foldl_pair_append (fun c : AetherNode => (traverse p act f c.id).1)
        (fun c : AetherNode => (traverse p act f c.id).2)]
      have hbc : (fun c : AetherNode => (traverse p act f c.id).1) =
          (fun c => (visit p f c.id).flatMap (blockContrib p act)) :=
        funext fun c => by rw [ih c.id]
      have htc : (fun c : AetherNode => (traverse p act f c.id).2) =
          (fun c => (visit p f c.id).flatMap (toolContrib p act)) :=
        funext fun c => by rw [ih c.id]
      rw [hbc, htc, List.flatMap_cons, List.flatMap_cons, List.flatMap_assoc,
        List.flatMap_assoc]
      have hid : n.id = id := (findNode_mem_id hf).2
      unfold blockContrib toolContrib
      rw [hid]
      by_cases hinc : shouldInclude p act id = true
      · simp [hinc]
      · simp [hinc]

/-- Catalog-entry declaration counts, per visited node. -/
theorem declSum_append (a b : List ToolEntry) :
    declSum (a ++ b) = declSum a + declSum b := by
  unfold declSum
  rw [List.map_append, List.sum_append]

/-- The declaration count of the visited nodes' contributions: one per
included search tool plus one per included non-search tool. -/
theorem declSum_toolContrib (p : ProjectState) (act : Option (List String)) :
    ∀ l : List AetherNode,
      declSum (l.flatMap (toolContrib p act)) =
        l.countP (activeSearchToolB p act) + l.countP (activeFnToolB p act) := by
  intro l
  induction l with
  | nil => rfl
  | cons n rest ih =>
    rw [List.flatMap_cons, declSum_append, ih, List.countP_cons, List.countP_cons]
    have hpt : declSum (toolContrib p act n) =
        (if activeSearchToolB p act n = true then 1 else 0) +
        (if activeFnToolB p act n = true then 1 else 0) := by
      unfold toolContrib nodeTools activeSearchToolB activeFnToolB
      by_cases h1 : shouldInclude p act n.id = true
      · by_cases h2 : n.type = some "TOOL"
        · by_cases h3 : n.toolType = some "googleSearch"
          · simp [h1, h2, h3, declSum, declCount]
          · simp [h1, h2, h3, declSum, declCount]
        · simp [h1, h2, declSum]
      · simp [h1, declSum]
    rw [hpt]
    omega

/-- The number of labeled blocks the visited nodes contribute: one per
included Agent/Router/Tool/Memory node. -/
theorem length_blockContrib (p : ProjectState) (act : Option (List String)) :
    ∀ l : List AetherNode,
      (l.flatMap (blockContrib p act)).length = l.countP (blockNodeB p act) := by
  intro l
  induction l with
  | nil => rfl
  | cons n rest ih =>
    rw [List.flatMap_cons, List.length_append, ih, List.countP_cons]
    have hpt : (blockContrib p act n).length =
        if blockNodeB p act n = true then 1 else 0 := by
      unfold blockContrib blockNodeB nodeBlock
      by_cases h1 : shouldInclude p act n.id = true
      · by_cases hA : n.type = some "AGENT"
        · simp [h1, hA]
        · by_cases hR : n.type = some "ROUTER"
          · simp [h1, hA, hR]
          · by_cases hT : n.type = some "TOOL"
            · simp [h1, hA, hR, hT]
            · by_cases hM : n.type = some "MEMORY"
              · simp [h1, hA, hR, hT, hM]
              · simp [h1, hA, hR, hT, hM]
      · simp [h1]
    rw [hpt]
    omega

/-- The function-declaration names of appended catalogs. -/
theorem fnNames_append (a b : List ToolEntry) :
    fnNames (a ++ b) = fnNames a ++ fnNames b := by
  unfold fnNames
  rw [List.filterMap_append]

/-- The catalog's user-function names are exactly the sanitized display names
of the included non-search tool nodes, in visit order and without
de-duplication. -/
theorem fnNames_toolContrib (p : ProjectState) (act : Option (List String)) :
    ∀ l : List AetherNode,
      fnNames (l.flatMap (toolContrib p act)) =
        (l.filter (activeFnToolB p act)).map (fun n => sanitize n.name) := by
  intro l
  induction l with
  | nil => rfl
  | cons n rest ih =>
    rw [List.flatMap_cons, fnNames_append, ih]
    have hpt : fnNames (toolContrib p act n) =
        if activeFnToolB p act n = true then [sanitize n.name] else [] := by
      unfold toolContrib nodeTools activeFnToolB fnNames
      by_cases h1 : shouldInclude p act n.id = true
      · by_cases h2 : n.type = some "TOOL"
        · by_cases h3 : n.toolType = some "googleSearch"
          · simp [h1, h2, h3]
          · simp [h1, h2, h3]
        · simp [h1, h2]
      · simp [h1]
    rw [hpt]
    by_cases hp : activeFnToolB p act n = true
    · rw [if_pos hp, List.filter_cons_of_pos hp, List.map_cons]
      rfl
    · rw [if_neg hp, List.filter_cons_of_neg (by simpa using hp)]
      simp

/-! ## C3 — catalog size and instruction blocks -/

/-- **C3 counterexample.** On a well-formed store with two search tools, the
catalog's declaration count is NOT "non-search tools + one-if-any-search +
two built-ins" (each search tool contributes its own entry), and the
instruction text does NOT contain one block per active-set node (the SYSTEM
root contributes none). -/
theorem c3_counterexample :
    StoreWF twoSearchProj.rootNodeId twoSearchProj.nodes ∧
    ¬ (declSum (collectContext twoSearchProj none).2 =
        twoSearchProj.nodes.countP (activeFnToolB twoSearchProj none) +
        (if twoSearchProj.nodes.any (activeSearchToolB twoSearchProj none) then 1 else 0) +
        2) ∧
    ¬ ((collectBlocks twoSearchProj none).length =
        (twoSearchProj.nodes.filter
          (fun n => shouldInclude twoSearchProj none n.id)).length) :=
  ⟨by decide, by decide, by decide⟩

/-- **C3 (amended).** For every well-formed store, the catalog's declaration
count is the two built-ins plus ONE ENTRY PER included search tool plus one
per included non-search tool; and the instruction text is the header followed
by the concatenated labeled blocks — exactly one block per included
Agent/Router/Tool/Memory node (SYSTEM-typed and untyped nodes contribute no
block). -/
theorem c3_catalog_and_blocks (p : ProjectState) (act : Option (List String))
    (hwf : StoreWF p.rootNodeId p.nodes) :
    declSum (collectContext p act).2 =
      2 + p.nodes.countP (activeSearchToolB p act) +
        p.nodes.countP (activeFnToolB p act) ∧
    (collectBlocks p act).length = p.nodes.countP (blockNodeB p act) ∧
    (collectContext p act).1 =
      "Current Active System Stack:\n" ++ String.join (collectBlocks p act) := by
  obtain ⟨r, hr, _, _⟩ := root_spec hwf
  have hperm := visit_perm hwf
  have hfac := traverse_factor p act p.nodes.length p.rootNodeId
  have hcatalog : (collectContext p act).2 =
      ToolEntry.builtins ::
        (visit p p.nodes.length p.rootNodeId).flatMap (toolContrib p act) := by
    unfold collectContext
    rw [hr]
    dsimp only
    rw [hfac]
  have hblocks : collectBlocks p act =
      (visit p p.nodes.length p.rootNodeId).flatMap (blockContrib p act) := by
    unfold collectBlocks collectParts
    rw [hr, hfac]
  have hds : ∀ L : List ToolEntry, declSum (ToolEntry.builtins :: L) = 2 + declSum L := by
    intro L
    unfold declSum
    rw [List.map_cons, List.sum_cons]
    rfl
  refine ⟨?_, ?_, ?_⟩
  · rw [hcatalog, hds, declSum_toolContrib, hperm.countP_eq, hperm.countP_eq]
    omega
  · rw [hblocks, length_blockContrib, hperm.countP_eq]
  · unfold collectContext collectBlocks collectParts
    rw [hr]

/-- Witness for C3's amended statement at the two-search-tool store. -/
theorem c3_catalog_and_blocks_witness :
    declSum (collectContext twoSearchProj none).2 = 2 + 2 + 0 ∧
    (collectBlocks twoSearchProj none).length = 2 := by
  have h := c3_catalog_and_blocks twoSearchProj none (by decide)
  exact ⟨h.1.trans (by decide), h.2.1.trans (by decide)⟩

/-! ## C4 — catalog entry naming -/

/-- **C4 counterexample.** The entry for the tool displayed as "Get Time" is
named `Get_Time` — the space is replaced by an underscore, not stripped: the
claimed name `GetTime` does not occur in the catalog. -/
theorem c4_counterexample :
    StoreWF getTimeProj.rootNodeId getTimeProj.nodes ∧
    fnNames (collectContext getTimeProj none).2 = ["Get_Time"] ∧
    ¬ "GetTime" ∈ fnNames (collectContext getTimeProj none).2 :=
  ⟨by decide, by decide, by decide⟩

/-- **C4 (amended).** For every well-formed store, the catalog's user-entry
names are exactly the display names of the included non-search Tool nodes
with every non-alphanumeric/underscore character REPLACED BY an underscore
(not removed) — one entry per node, collisions not de-duplicated (the name
multiset matches the node multiset); e.g. "Get Time" becomes `Get_Time`. -/
theorem c4_fn_names_sanitized (p : ProjectState) (act : Option (List String))
    (hwf : StoreWF p.rootNodeId p.nodes) :
    (fnNames (collectContext p act).2).Perm
      ((p.nodes.filter (activeFnToolB p act)).map (fun n => sanitize n.name)) ∧
    sanitize "Get Time" = "Get_Time" := by
  obtain ⟨r, hr, _, _⟩ := root_spec hwf
  have hperm := visit_perm hwf
  have hfac := traverse_factor p act p.nodes.length p.rootNodeId
  constructor
  · have hcat : fnNames (collectContext p act).2 =
        ((visit p p.nodes.length p.rootNodeId).filter (activeFnToolB p act)).map
          (fun n => sanitize n.name) := by
      unfold collectContext
      rw [hr]
      dsimp only
      rw [hfac]
      exact fnNames_toolContrib p act _
    rw [hcat]
    exact (hperm.filter _).map _
  · decide

/-- Witness for C4's amended statement at the "Get Time" store. -/
theorem c4_fn_names_sanitized_witness :
    (fnNames (collectContext getTimeProj none).2).Perm
      ((getTimeProj.nodes.filter (activeFnToolB getTimeProj none)).map
        (fun n => sanitize n.name)) :=
  (c4_fn_names_sanitized getTimeProj none (by decide)).1

/-! ## C7 — structural invariant under node-tree operations -/

/-- Assigning a fresh key appends the entry. -/
theorem setNode_fresh (ns : List AetherNode) (id : String) (v : AetherNode)
    (hfresh : ∀ n ∈ ns, ¬ n.id = id) : setNode ns id v = ns ++ [v] := by
  unfold setNode
  rw [if_neg]
  intro hany
  obtain ⟨n, hn, hp⟩ := List.any_eq_true.mp hany
  exact hfresh n hn (of_decide_eq_true hp)

/-- Shape of a successful create: the new node is appended with the resolved
parent id. -/
theorem manageNode_create_shape (newId : String) (p : ProjectState)
    (stack : List String) (args : CallArgs) (ha : args.action = some "create")
    (hpar : ¬ findNode p.nodes (jsOrStr args.parentId p.rootNodeId) = none)
    (hfresh : ∀ n ∈ p.nodes, ¬ n.id = newId) :
    ∃ x : AetherNode, x.id = newId ∧
      x.parentId = some (jsOrStr args.parentId p.rootNodeId) ∧
      (manageNode newId p stack args).1.nodes = p.nodes ++ [x] ∧
      (manageNode newId p stack args).1.rootNodeId = p.rootNodeId := by
  have hnone : (findNode p.nodes (jsOrStr args.parentId p.rootNodeId)).isNone = false := by
    cases hf : findNode p.nodes (jsOrStr args.parentId p.rootNodeId) with
    | none => exact absurd hf hpar
    | some m => rfl
  unfold manageNode
  rw [if_pos ha]
  dsimp only
  rw [hnone]
  simp only [Bool.false_eq_true, if_false]
  refine ⟨_, ?_, ?_, setNode_fresh p.nodes newId _ hfresh, trivial⟩ <;> rfl

/-- **C7 counterexample.** Starting from a well-formed store, a `manage_node`
update may set a node's parent to the node itself: the call succeeds and the
resulting store violates the structural invariant; moreover the inspector's
parent selector offers a grandchild of the node as its parent (it excludes
only the node and its direct children), enabling a cycle. -/
theorem c7_counterexample :
    (StoreWF agentProj.rootNodeId agentProj.nodes ∧
     (manageNode "fresh" agentProj ["root", "a1"] selfParentArgs).2.2.1 =
       "Success. Node a1 updated." ∧
     findNode (manageNode "fresh" agentProj ["root", "a1"] selfParentArgs).1.nodes "a1" =
       some { agentNode "a1" "Helper" with parentId := some "a1" } ∧
     ¬ StoreWF (manageNode "fresh" agentProj ["root", "a1"] selfParentArgs).1.rootNodeId
        (manageNode "fresh" agentProj ["root", "a1"] selfParentArgs).1.nodes) ∧
    (StoreWF chainProj.rootNodeId chainProj.nodes ∧
     (getPotentialParents chainProj "a1").any (fun n => n.id = "c1") = true) :=
  ⟨⟨by decide, by decide, by decide, by decide⟩, ⟨by decide, by decide⟩⟩

/-- **C7 (amended).** `manage_node` create preserves the structural invariant
(a missing parent is rejected with no mutation; with a fresh id and a
resolvable parent the well-formedness of the store is preserved), but update
and delete do NOT: an update applies any non-empty `parentId` — including the
node's own id, or a descendant's — with no existence or ancestry check, and a
delete removes only the named node, leaving any child's parent id dangling
and the store ill-formed. -/
theorem c7_create_checked_update_delete_unchecked :
    (∀ (newId : String) (p : ProjectState) (stack : List String) (args : CallArgs),
      args.action = some "create" →
      findNode p.nodes (jsOrStr args.parentId p.rootNodeId) = none →
      (manageNode newId p stack args).1 = p ∧
      (manageNode newId p stack args).2.2.2 = false) ∧
    (∀ (newId : String) (p : ProjectState) (stack : List String) (args : CallArgs),
      args.action = some "create" →
      StoreWF p.rootNodeId p.nodes →
      (∀ n ∈ p.nodes, ¬ n.id = newId) →
      ¬ findNode p.nodes (jsOrStr args.parentId p.rootNodeId) = none →
      StoreWF (manageNode newId p stack args).1.rootNodeId
        (manageNode newId p stack args).1.nodes) ∧
    (∀ (newId : String) (p : ProjectState) (stack : List String) (args : CallArgs)
        (node : AetherNode) (q : String),
      args.action = some "update" →
      findNode p.nodes (jsKey args.nodeId) = some node →
      args.parentId = some q → ¬ q = "" →
      (manageNode newId p stack args).2.2.2 = true ∧
      ∃ node', findNode (manageNode newId p stack args).1.nodes (jsKey args.nodeId) =
        some node' ∧ node'.parentId = some q) ∧
    (∀ (newId : String) (p : ProjectState) (stack : List String) (args : CallArgs)
        (x y : AetherNode),
      args.action = some "delete" →
      args.nodeId = some x.id → x ∈ p.nodes → y ∈ p.nodes →
      y.parentId = some x.id → ¬ y.id = x.id →
      y ∈ (manageNode newId p stack args).1.nodes ∧
      findNode (manageNode newId p stack args).1.nodes x.id = none ∧
      ¬ StoreWF (manageNode newId p stack args).1.rootNodeId
        (manageNode newId p stack args).1.nodes) := by
  refine ⟨?_, ?_, ?_, ?_⟩
  · intro newId p stack args ha hmiss
    constructor <;> simp [manageNode, ha, hmiss]
  · intro newId p stack args ha hwf hfresh hpar
    obtain ⟨x, hxid, hxpar, hnodes, hroot⟩ :=
      manageNode_create_shape newId p stack args ha hpar hfresh
    rw [hroot, hnodes]
    obtain ⟨hnd, hrootEx, hnullRoot, hpe⟩ := hwf
    refine ⟨?_, ?_, ?_, ?_⟩
    · rw [List.map_append]
      rw [List.nodup_append]
      refine ⟨hnd, List.nodup_singleton _, ?_⟩
      intro a ha1 ha2
      simp only [List.map_cons, List.map_nil, List.mem_singleton] at ha2
      obtain ⟨n, hn, hnid⟩ := List.mem_map.mp ha1
      apply hfresh n hn
      rw [hnid, ha2, hxid]
    · obtain ⟨r, hrmem, hrid, hrpar⟩ := hrootEx
      exact ⟨r, List.mem_append_left _ hrmem, hrid, hrpar⟩
    · intro n hn hnp
      rcases List.mem_append.mp hn with h | h
      · exact hnullRoot n h hnp
      · rw [List.mem_singleton.mp h, hxpar] at hnp
        cases hnp
    · intro i
      by_cases hi : i.1 < p.nodes.length
      · have hget : (p.nodes ++ [x]).get i = p.nodes.get ⟨i.1, hi⟩ := by
          simp only [List.get_eq_getElem]
          exact List.getElem_append_left hi
        rw [hget]
        unfold parentEarlierB
        cases hp : (p.nodes.get ⟨i.1, hi⟩).parentId with
        | none => rfl
        | some pid =>
          have hold := hpe ⟨i.1, hi⟩
          unfold parentEarlierB at hold
          rw [hp] at hold
          dsimp only at hold
          dsimp only
          rw [List.take_append_of_le_length (Nat.le_of_lt hi)]
          exact hold
      · have hieq : i.1 = p.nodes.length := by
          have h2 := i.2
          simp only [List.length_append, List.length_cons, List.length_nil] at h2
          omega
        have hget : (p.nodes ++ [x]).get i = x := by
          rw [List.get_eq_getElem]
          exact List.getElem_concat_length p.nodes x i.1 hieq i.2
        rw [hget]
        unfold parentEarlierB
        rw [hxpar]
        dsimp only
        rw [hieq, List.take_left]
        apply List.any_eq_true.mpr
        obtain ⟨m, hm⟩ : ∃ m,
            findNode p.nodes (jsOrStr args.parentId p.rootNodeId) = some m := by
          cases hf : findNode p.nodes (jsOrStr args.parentId p.rootNodeId) with
          | none => exact absurd hf hpar
          | some m => exact ⟨m, rfl⟩
        exact ⟨m, (findNode_mem_id hm).1, decide_eq_true (findNode_mem_id hm).2⟩
  · intro newId p stack args node q ha hn hq hq'
    have hne : ¬ args.action = some "create" := by rw [ha]; simp
    have hmem : p.nodes.any (fun n => n.id = jsKey args.nodeId) = true := by
      refine List.any_eq_true.mpr ⟨node, List.mem_of_find?_eq_some hn, ?_⟩
      exact decide_eq_true (findNode_mem_id hn).2
    unfold manageNode
    rw [if_neg hne, if_pos ha]
    simp only [hn]
    refine ⟨trivial, _, findNode_setNode_self _ _ _ (findNode_mem_id hn).2 hmem, ?_⟩
    simp [jsOrOpt, hq, hq']
  · intro newId p stack args x y ha hx hxmem hymem hyp hyne
    have hne1 : ¬ args.action = some "create" := by rw [ha]; simp
    have hne2 : ¬ args.action = some "update" := by rw [ha]; simp
    have hkey : jsKey args.nodeId = x.id := by rw [hx]; rfl
    have hfound : (findNode p.nodes (jsKey args.nodeId)).isNone = false := by
      rw [hkey]
      have hex : ∃ n ∈ p.nodes, (fun m : AetherNode => decide (m.id = x.id)) n = true :=
        ⟨x, hxmem, by simp⟩
      have := List.find?_isSome.mpr hex
      unfold findNode
      cases hf : p.nodes.find? (fun m : AetherNode => decide (m.id = x.id)) with
      | none => rw [hf] at this; cases this
      | some m => rfl
    have hnodes : (manageNode newId p stack args).1.nodes =
        p.nodes.filter (fun n => ¬ n.id = x.id) := by
      unfold manageNode
      rw [if_neg hne1, if_neg hne2, if_pos ha]
      dsimp only
      rw [hfound]
      simp only [Bool.false_eq_true, if_false]
      unfold deleteNode
      rw [hkey]
    have hroot : (manageNode newId p stack args).1.rootNodeId = p.rootNodeId := by
      unfold manageNode
      rw [if_neg hne1, if_neg hne2, if_pos ha]
      dsimp only
      rw [hfound]
      simp only [Bool.false_eq_true, if_false]
    refine ⟨?_, ?_, ?_⟩
    · rw [hnodes]
      exact List.mem_filter.mpr ⟨hymem, decide_eq_true hyne⟩
    · rw [hnodes]
      unfold findNode
      apply List.find?_eq_none.mpr
      intro a hamem hpa
      have haid : a.id = x.id := of_decide_eq_true hpa
      have := (List.mem_filter.mp hamem).2
      exact (of_decide_eq_true this) haid
    · intro hwf'
      rw [hroot, hnodes] at hwf'
      obtain ⟨_, _, _, hpe'⟩ := hwf'
      have hyin : y ∈ p.nodes.filter (fun n => ¬ n.id = x.id) :=
        List.mem_filter.mpr ⟨hymem, decide_eq_true hyne⟩
      obtain ⟨i, hig⟩ := List.mem_iff_get.mp hyin
      have hclause := hpe' i
      rw [hig] at hclause
      unfold parentEarlierB at hclause
      rw [hyp] at hclause
      dsimp only at hclause
      obtain ⟨m, hmtake, hmid⟩ := List.any_eq_true.mp hclause
      have hmmem : m ∈ p.nodes.filter (fun n => ¬ n.id = x.id) :=
        List.mem_of_mem_take hmtake
      have := (List.mem_filter.mp hmmem).2
      exact (of_decide_eq_true this) (of_decide_eq_true hmid)

/-- Witness for C7's amended statement: a rejected create with a bogus
parent, a well-formedness-preserving create, a self-reparenting update, and a
dangling delete, all on concrete stores. -/
theorem c7_create_checked_update_delete_unchecked_witness :
    ((manageNode "fresh" agentProj []
        { emptyArgs with action := some "create", parentId := some "ghost" }).1 =
      agentProj) ∧
    StoreWF (manageNode "fresh" agentProj []
        { emptyArgs with action := some "create", name := some "Kid" }).1.rootNodeId
      (manageNode "fresh" agentProj []
        { emptyArgs with action := some "create", name := some "Kid" }).1.nodes ∧
    (∃ node', findNode (manageNode "fresh" agentProj ["root", "a1"]
        selfParentArgs).1.nodes "a1" = some node' ∧ node'.parentId = some "a1") ∧
    ¬ StoreWF (manageNode "fresh" chainProj []
        { emptyArgs with action := some "delete", nodeId := some "b1" }).1.rootNodeId
      (manageNode "fresh" chainProj []
        { emptyArgs with action := some "delete", nodeId := some "b1" }).1.nodes := by
  refine ⟨?_, ?_, ?_, ?_⟩
  · exact (c7_create_checked_update_delete_unchecked.1 "fresh" agentProj []
      { emptyArgs with action := some "create", parentId := some "ghost" } rfl
      (by decide)).1
  · exact c7_create_checked_update_delete_unchecked.2.1 "fresh" agentProj []
      { emptyArgs with action := some "create", name := some "Kid" } rfl (by decide)
      (by decide) (by decide)
  · exact (c7_create_checked_update_delete_unchecked.2.2.1 "fresh" agentProj
      ["root", "a1"] selfParentArgs (agentNode "a1" "Helper") "a1" rfl (by decide) rfl
      (by decide)).2
  · exact (c7_create_checked_update_delete_unchecked.2.2.2 "fresh" chainProj []
      { emptyArgs with action := some "delete", nodeId := some "b1" }
      (agentNodeUnder "b1" "B" "a1") (agentNodeUnder "c1" "C" "b1") rfl rfl
      (by decide) (by decide) rfl (by decide)).2.2

end Aether
